import Mathlib

/-!
# Verification of the Compare-plugin diff engine (`src/Engine/Engine.cpp`)

This file shallowly embeds the core of the compare engine: the FNV-style
line hasher, the line extractor `getLines`, the tokenizers
(`getSectionChars`, `getLineWords`), the move detector
(`findBestMatch` / `resolveMatch` / `findMoves`), the block re-aligner
(`compareBlocks` / `compareLines`) and the find-unique mode
(`runFindUnique`).

Conventions of the embedding:
* C++ machine integers become `Int` (offsets, lengths) or `Nat` with an
  explicit `% 2 ^ 64` (the 64-bit hash); bytes are `Nat` values `< 256`.
* A document is the list of its lines' raw bytes (the Scintilla text
  provider `getLineStart` / `getLineEnd` / `getText` is replaced by the
  obvious list accesses).
* The progress object (cooperative cancellation) is not modelled: none of
  the verified claims concern cancellation.
* `float` convergence values of `compareBlocks` are modelled as exact
  rationals (`Rat`).
* The generic LCS engine `DiffCalc` lives in `diff.h`, which is not part
  of the sources under verification; it is modelled from the
  specification (see `diffCalc` below).
* Loops whose C++ termination argument is extrinsic take an explicit
  `fuel` argument; every claim-level evaluation supplies fuel that is
  visibly sufficient for the concrete input.
-/

namespace Engine

/-- `2 ^ 64`, the modulus of the engine's `uint64_t` hash arithmetic. -/
def W64 : Nat := 18446744073709551616

/-- Seed of the FNV-like hash, `cHashSeed` in `Engine.cpp`. -/
def cHashSeed : Nat := 0x84222325

/-- `static_cast<uint64_t>(letter)` where `letter` is a (signed) `char`
holding the byte `b`: bytes `≥ 0x80` are sign-extended to 64 bits. -/
def signExt64 (b : Nat) : Nat :=
  if b < 128 then b else 0xFFFFFFFFFFFFFF00 + b

/-- `Hash(hval, letter)` of `Engine.cpp`:
`hval ^= letter; hval += (hval<<1)+(hval<<4)+(hval<<5)+(hval<<7)+(hval<<8)+(hval<<40)`
with every shift and the sum taken modulo `2^64`. -/
def Hash (hval : Nat) (b : Nat) : Nat :=
  let x := hval ^^^ signExt64 b
  (x + (x <<< 1) % W64 + (x <<< 4) % W64 + (x <<< 5) % W64
     + (x <<< 7) % W64 + (x <<< 8) % W64 + (x <<< 40) % W64) % W64

/-- ASCII lower-casing of one byte (`toLowerCase` folds `A`–`Z` only). -/
def toLowerByte (b : Nat) : Nat :=
  if 65 ≤ b ∧ b ≤ 90 then b + 32 else b

/-- `CompareOptions` (the fields the engine core reads). -/
structure Options where
  ignoreCase : Bool := false
  ignoreSpaces : Bool := false
  ignoreEmptyLines : Bool := false
  detectMoves : Bool := false
  charPrecision : Bool := false
  matchPercentThreshold : Nat := 50
deriving Repr, DecidableEq

/-- A half-open range `(off, len)`, `section_t` of the engine. -/
structure Sec where
  off : Int
  len : Int
deriving Repr, DecidableEq

/-- A normalized line: original (0-based) line index plus content hash. -/
structure LineRec where
  line : Int
  hash : Nat
deriving Repr, DecidableEq

/-- A document handed to the engine: the raw bytes of each line
(terminators excluded), in order. -/
abbrev Document := List (List Nat)

/-- Total byte length as Scintilla's `SCI_GETLENGTH` reports it
(line bytes plus one byte per line separator); the engine only tests it
against zero, and it is zero exactly for a single empty line. -/
def docLength (doc : Document) : Nat :=
  (doc.map List.length).sum + (doc.length - 1)

/-- Byte list of line `i` of the document (`getText` between
`getLineStart` and `getLineEnd`). -/
def docLine (doc : Document) (i : Int) : List Nat :=
  if h : 0 ≤ i ∧ i.toNat < doc.length then doc.get ⟨i.toNat, h.2⟩ else []

/-- The per-line hashing of `getLines`: case-fold the fetched buffer when
`ignoreCase` (the C++ calls `toLowerCase(line)` before the loop), then fold
every byte into the hash, skipping spaces and tabs when `ignoreSpaces`. -/
def lineHashLoop (opts : Options) (bytes : List Nat) : Nat :=
  let line := if opts.ignoreCase then bytes.map toLowerByte else bytes
  line.foldl
    (fun h b =>
      if opts.ignoreSpaces && (b == 32 || b == 9) then h else Hash h b)
    cHashSeed

/-- The section clamping at the top of `getLines`: if `len ≤ 0` or the
section overruns the document, the length is reset to reach document end. -/
def clampLen (doc : Document) (sec : Sec) : Int :=
  if sec.len ≤ 0 ∨ sec.off + sec.len > (doc.length : Int) then
    (doc.length : Int) - sec.off
  else sec.len

/-- `getLines` of `Engine.cpp`: walk the (clamped) section of the
document, hash each line under the options, and emit
`{line := original index, hash}` unless the hash equals the seed and
`ignoreEmptyLines` is set.  The cancellation poll is not modelled. -/
def getLines (doc : Document) (sec : Sec) (opts : Options) : List LineRec :=
  if docLength doc = 0 then []
  else
    let len : Int := clampLen doc sec
    (List.range len.toNat).foldl
      (fun acc lineNum =>
        let i : Int := Int.ofNat lineNum + sec.off
        let h := lineHashLoop opts (docLine doc i)
        if !opts.ignoreEmptyLines || h != cHashSeed then acc ++ [⟨i, h⟩]
        else acc)
      []

/-! ### Closed forms used by the claims about the hasher and extractor -/

/-- The normalized content of a line: case folded when `ignoreCase`,
with spaces and tabs dropped when `ignoreSpaces`. -/
def normBytes (opts : Options) (bytes : List Nat) : List Nat :=
  (if opts.ignoreCase then bytes.map toLowerByte else bytes).filter
    (fun b => !(opts.ignoreSpaces && (b == 32 || b == 9)))

/-- The FNV-1 64-bit prime `0x100000001B3`. -/
def fnvPrime : Nat := 1099511628211

theorem Hash_eq_mul (h b : Nat) :
    Hash h b = ((h ^^^ signExt64 b) * fnvPrime) % W64 := by
  show ((h ^^^ signExt64 b) + ((h ^^^ signExt64 b) <<< 1) % W64
      + ((h ^^^ signExt64 b) <<< 4) % W64 + ((h ^^^ signExt64 b) <<< 5) % W64
      + ((h ^^^ signExt64 b) <<< 7) % W64 + ((h ^^^ signExt64 b) <<< 8) % W64
      + ((h ^^^ signExt64 b) <<< 40) % W64) % W64
      = ((h ^^^ signExt64 b) * fnvPrime) % W64
  generalize (h ^^^ signExt64 b) = x
  simp only [Nat.shiftLeft_eq, fnvPrime, W64]
  norm_num
  omega

/-- A fold that skips elements failing a test equals the fold over the
filtered list. -/
theorem foldl_skip {α β : Type _} (p : α → Bool) (f : β → α → β) :
    ∀ (l : List α) (init : β),
      l.foldl (fun h b => if p b then h else f h b) init
        = (l.filter (fun b => !p b)).foldl f init := by
  intro l
  induction l with
  | nil => intro init; rfl
  | cons b bs ih =>
      intro init
      by_cases hb : p b
      · simp [List.filter_cons, hb, ih]
      · simp [List.filter_cons, hb, ih]

theorem lineHashLoop_eq_foldl_norm (opts : Options) (bytes : List Nat) :
    lineHashLoop opts bytes = (normBytes opts bytes).foldl Hash cHashSeed := by
  unfold lineHashLoop normBytes
  exact foldl_skip (fun b => opts.ignoreSpaces && (b == 32 || b == 9)) Hash
    (if opts.ignoreCase then bytes.map toLowerByte else bytes) cHashSeed

/-- The hash step exactly as the specification words it: XOR with the plain
byte value (no sign extension), then the shift-add mixing modulo `2^64`.
Stated only to compare the spec's sentence against the code's `Hash`. -/
def specHashStep (hval b : Nat) : Nat :=
  let x := hval ^^^ b
  (x + (x <<< 1) % W64 + (x <<< 4) % W64 + (x <<< 5) % W64
     + (x <<< 7) % W64 + (x <<< 8) % W64 + (x <<< 40) % W64) % W64

/-- A generic emitting fold equals `filterMap` over the underlying list. -/
theorem foldl_emit_eq_filterMap {α β : Type _} (c : α → Bool) (g : α → β) :
    ∀ (l : List α) (acc : List β),
      l.foldl (fun acc x => if c x then acc ++ [g x] else acc) acc
      = acc ++ l.filterMap (fun x => if c x then some (g x) else none) := by
  intro l
  induction l with
  | nil => intro acc; simp
  | cons x xs ih =>
      intro acc
      simp only [List.foldl_cons, List.filterMap_cons]
      cases hf : c x <;> simp [hf, ih]

/-- **C4, counterexample.**  The claim's per-byte recurrence XORs the plain
byte value, but `Hash` receives a (signed) `char` cast to `uint64_t`, which
sign-extends bytes `≥ 0x80`: the one-byte line `0x80` already hashes
differently from the claim's formula. -/
theorem C4_hash_recurrence_cex :
    lineHashLoop ⟨false, false, false, false, false, 50⟩ [128]
      ≠ (normBytes ⟨false, false, false, false, false, 50⟩ [128]).foldl
          specHashStep cHashSeed := by
  decide

/-- **C4 (amended).**  For every byte sequence, the line hash folds the
normalized bytes starting from the seed `0x84222325`, each step XORing the
sign-extended byte (equal to the byte itself for bytes `< 0x80`) and then
applying the shift-add mixing, which equals multiplication by the FNV prime
`0x100000001B3` modulo `2^64`; a line whose normalized content is empty has
hash equal to the seed. -/
theorem C4_hash_recurrence :
    ∀ (opts : Options) (bytes : List Nat),
      lineHashLoop opts bytes
        = (normBytes opts bytes).foldl
            (fun h b => ((h ^^^ signExt64 b) * fnvPrime) % W64) cHashSeed
      ∧ (normBytes opts bytes = [] → lineHashLoop opts bytes = cHashSeed)
      ∧ (∀ b, b < 128 → signExt64 b = b) := by
  intro opts bytes
  have hfun : Hash = fun h b => ((h ^^^ signExt64 b) * fnvPrime) % W64 :=
    funext fun h => funext fun b => Hash_eq_mul h b
  refine ⟨?_, ?_, ?_⟩
  · rw [lineHashLoop_eq_foldl_norm, hfun]
  · intro hemp
    rw [lineHashLoop_eq_foldl_norm, hemp]
    rfl
  · intro b hb
    simp [signExt64, hb]

/-- Witness for `C4_hash_recurrence`: an all-whitespace line under
`ignoreSpaces` has empty normalized content and hashes to the seed. -/
theorem C4_hash_recurrence_witness :
    lineHashLoop ⟨false, true, false, false, false, 50⟩ [32, 9] = cHashSeed ∧
    signExt64 65 = 65 := by
  have h := C4_hash_recurrence ⟨false, true, false, false, false, 50⟩ [32, 9]
  exact ⟨h.2.1 (by decide), h.2.2 65 (by decide)⟩

/-- **C5.**  `getLines` emits, for each line of the clamped section in
order, the pair (original 0-based index, hash of the normalized content) —
skipping the line exactly when `ignoreEmptyLines` is set and the hash
equals the seed; and the normalized content excludes space and tab bytes
exactly when `ignoreSpaces` is set. -/
theorem C5_getLines_extractor :
    ∀ (doc : Document) (sec : Sec) (opts : Options),
      (getLines doc sec opts =
        if docLength doc = 0 then []
        else
          (List.range (clampLen doc sec).toNat).filterMap (fun k =>
            let i : Int := Int.ofNat k + sec.off
            let h := (normBytes opts (docLine doc i)).foldl Hash cHashSeed
            if opts.ignoreEmptyLines = true ∧ h = cHashSeed then none
            else some ⟨i, h⟩))
      ∧ (opts.ignoreSpaces = true →
          ∀ bytes, 32 ∉ normBytes opts bytes ∧ 9 ∉ normBytes opts bytes)
      ∧ (opts.ignoreSpaces = false →
          ∀ bytes, normBytes opts bytes =
            if opts.ignoreCase then bytes.map toLowerByte else bytes) := by
  intro doc sec opts
  refine ⟨?_, ?_, ?_⟩
  · unfold getLines
    by_cases hd : docLength doc = 0
    · simp [hd]
    · simp only [hd, if_neg, if_false]
      rw [foldl_emit_eq_filterMap
          (fun k : Nat => !opts.ignoreEmptyLines ||
            lineHashLoop opts (docLine doc (Int.ofNat k + sec.off)) != cHashSeed)
          (fun k : Nat => LineRec.mk (Int.ofNat k + sec.off)
            (lineHashLoop opts (docLine doc (Int.ofNat k + sec.off))))]
      rw [List.nil_append]
      congr 1
      funext k
      rw [lineHashLoop_eq_foldl_norm]
      by_cases hie : opts.ignoreEmptyLines
      · by_cases hh :
          (normBytes opts (docLine doc ((k : Int) + sec.off))).foldl Hash
            cHashSeed = cHashSeed <;>
          simp [hie, hh]
      · simp [hie]
  · intro hs bytes
    constructor <;>
      · intro hmem
        have := List.of_mem_filter hmem
        simp [hs] at this
  · intro hs bytes
    unfold normBytes
    rw [List.filter_eq_self.mpr]
    intro b _
    simp [hs]

/-- Witness for `C5_getLines_extractor`: with `ignoreSpaces` the space and
tab of `" a\t"` leave the normalized content, without it they stay. -/
theorem C5_getLines_extractor_witness :
    (32 ∉ normBytes ⟨false, true, false, false, false, 50⟩ [32, 97, 9] ∧
      9 ∉ normBytes ⟨false, true, false, false, false, 50⟩ [32, 97, 9]) ∧
    normBytes ⟨false, false, false, false, false, 50⟩ [32, 97, 9]
      = [32, 97, 9] := by
  have h1 := C5_getLines_extractor [[32, 97, 9]] ⟨0, 1⟩
    ⟨false, true, false, false, false, 50⟩
  have h2 := C5_getLines_extractor [[32, 97, 9]] ⟨0, 1⟩
    ⟨false, false, false, false, false, 50⟩
  exact ⟨h1.2.1 rfl [32, 97, 9], (h2.2.2 rfl [32, 97, 9]).trans (by decide)⟩

/-! ## The find-unique mode (`runFindUnique`) -/

/-- Result of a compare run (`CANCELLED`/`ERROR` concern the progress
object and the host and are not modelled). -/
inductive CompareResult where
  | COMPARE_MATCH
  | COMPARE_MISMATCH
deriving Repr, DecidableEq

/-- One step of building `doc1UniqueLines` / `doc2UniqueLines`: emplace the
line under its hash, appending to the entry when the hash is present. -/
def addToGroups (m : List (Nat × List Int)) (l : LineRec) :
    List (Nat × List Int) :=
  if m.any (fun g => g.1 == l.hash) then
    m.map (fun g => if g.1 == l.hash then (g.1, g.2 ++ [l.line]) else g)
  else m ++ [(l.hash, [l.line])]

/-- The `hash → [line]` map built by `runFindUnique` for each document
(`std::unordered_map`, modelled in first-insertion order). -/
def groupByHash (lines : List LineRec) : List (Nat × List Int) :=
  lines.foldl addToGroups []

/-- `doc2UniqueLines.erase(doc2it)`. -/
def eraseKey (m : List (Nat × List Int)) (h : Nat) : List (Nat × List Int) :=
  m.filter (fun g => g.1 != h)

/-- The loop of `runFindUnique` over `doc1UniqueLines`: erase each hash
that doc2 also has, count the doc1 lines of the hashes it lacks.  Returns
`(doc1UniqueLinesCount, remaining doc2UniqueLines)`. -/
def uniqueScan : List (Nat × List Int) → List (Nat × List Int) →
    Nat × List (Nat × List Int)
  | [], m2 => (0, m2)
  | g :: gs, m2 =>
      if m2.any (fun g2 => g2.1 == g.1) then uniqueScan gs (eraseKey m2 g.1)
      else
        let r := uniqueScan gs m2
        (r.1 + g.2.length, r.2)

/-- `runFindUnique` of `Engine.cpp` (marker emission elided): extract both
documents' normalized lines, group them by hash, and return
`COMPARE_MATCH` exactly when no doc1 line was counted unique and every
doc2 hash got erased. -/
def runFindUnique (doc1 doc2 : Document) (sec1 sec2 : Sec) (opts : Options) :
    CompareResult :=
  let lines1 := getLines doc1 sec1 opts
  let lines2 := getLines doc2 sec2 opts
  let st := uniqueScan (groupByHash lines1) (groupByHash lines2)
  if st.1 = 0 ∧ st.2 = [] then .COMPARE_MATCH else .COMPARE_MISMATCH

theorem addToGroups_key_mem (m : List (Nat × List Int)) (l : LineRec) (h : Nat) :
    (∃ ls, (h, ls) ∈ addToGroups m l) ↔ (∃ ls, (h, ls) ∈ m) ∨ h = l.hash := by
  unfold addToGroups
  by_cases hin : m.any (fun g => g.1 == l.hash) = true
  · rw [if_pos hin]
    constructor
    · rintro ⟨ls, hmem⟩
      obtain ⟨g, hg, hgeq⟩ := List.mem_map.mp hmem
      by_cases hk : g.1 = l.hash
      · right
        rw [if_pos (by simpa using hk)] at hgeq
        have : g.1 = h := congrArg Prod.fst hgeq
        rw [← this, hk]
      · left
        rw [if_neg (by simpa using hk)] at hgeq
        exact ⟨ls, hgeq ▸ hg⟩
    · rintro (⟨ls, hmem⟩ | rfl)
      · by_cases hk : h = l.hash
        · exact ⟨ls ++ [l.line],
            List.mem_map.mpr ⟨(h, ls), hmem, by simp [hk]⟩⟩
        · exact ⟨ls, List.mem_map.mpr ⟨(h, ls), hmem, by simp [hk]⟩⟩
      · obtain ⟨g, hg, hgk⟩ := List.any_eq_true.mp hin
        have hk : g.1 = l.hash := by simpa using hgk
        exact ⟨g.2 ++ [l.line],
          List.mem_map.mpr ⟨g, hg, by simp [hk]⟩⟩
  · rw [if_neg hin]
    constructor
    · rintro ⟨ls, hmem⟩
      rcases List.mem_append.mp hmem with hmem | hmem
      · exact Or.inl ⟨ls, hmem⟩
      · right
        simp only [List.mem_singleton, Prod.mk.injEq] at hmem
        exact hmem.1
    · rintro (⟨ls, hmem⟩ | rfl)
      · exact ⟨ls, List.mem_append_left _ hmem⟩
      · exact ⟨[l.line], List.mem_append_right _ (by simp)⟩

theorem groupByHash_key_mem (lines : List LineRec) (h : Nat) :
    (∃ ls, (h, ls) ∈ groupByHash lines) ↔ h ∈ lines.map LineRec.hash := by
  unfold groupByHash
  suffices key : ∀ (ls : List LineRec) (m : List (Nat × List Int)),
      (∃ l2, (h, l2) ∈ ls.foldl addToGroups m) ↔
        (∃ l2, (h, l2) ∈ m) ∨ h ∈ ls.map LineRec.hash by
    rw [key lines []]
    simp
  intro ls
  induction ls with
  | nil => intro m; simp
  | cons l ls ih =>
      intro m
      rw [List.foldl_cons, ih, addToGroups_key_mem]
      simp only [List.map_cons, List.mem_cons]
      tauto

theorem groupByHash_nonempty (lines : List LineRec) :
    ∀ g ∈ groupByHash lines, g.2 ≠ [] := by
  unfold groupByHash
  suffices key : ∀ (ls : List LineRec) (m : List (Nat × List Int)),
      (∀ g ∈ m, g.2 ≠ []) → ∀ g ∈ ls.foldl addToGroups m, g.2 ≠ [] from
    key lines [] (by simp)
  intro ls
  induction ls with
  | nil => intro m hm; simpa using hm
  | cons l ls ih =>
      intro m hm
      rw [List.foldl_cons]
      refine ih _ ?_
      intro g hg
      unfold addToGroups at hg
      by_cases hin : m.any (fun g => g.1 == l.hash) = true
      · rw [if_pos hin] at hg
        obtain ⟨g0, hg0, hgeq⟩ := List.mem_map.mp hg
        by_cases hk : g0.1 = l.hash
        · rw [if_pos (by simpa using hk)] at hgeq
          rw [← hgeq]
          simp
        · rw [if_neg (by simpa using hk)] at hgeq
          exact hgeq ▸ hm g0 hg0
      · rw [if_neg hin] at hg
        rcases List.mem_append.mp hg with hg | hg
        · exact hm g hg
        · simp only [List.mem_singleton] at hg
          rw [hg]
          simp

theorem groupByHash_keys_distinct (lines : List LineRec) :
    (groupByHash lines).Pairwise (fun a b => a.1 ≠ b.1) := by
  unfold groupByHash
  suffices key : ∀ (ls : List LineRec) (m : List (Nat × List Int)),
      m.Pairwise (fun a b => a.1 ≠ b.1) →
      (ls.foldl addToGroups m).Pairwise (fun a b => a.1 ≠ b.1) from
    key lines [] (by simp)
  intro ls
  induction ls with
  | nil => intro m hm; simpa using hm
  | cons l ls ih =>
      intro m hm
      rw [List.foldl_cons]
      refine ih _ ?_
      unfold addToGroups
      by_cases hin : m.any (fun g => g.1 == l.hash) = true
      · rw [if_pos hin]
        refine List.Pairwise.map _ ?_ hm
        intro a b hab
        show (if (a.1 == l.hash) = true then (a.1, a.2 ++ [l.line]) else a).1
          ≠ (if (b.1 == l.hash) = true then (b.1, b.2 ++ [l.line]) else b).1
        split <;> split <;> simpa using hab
      · rw [if_neg hin]
        rw [List.pairwise_append]
        refine ⟨hm, List.pairwise_singleton _ _, ?_⟩
        intro a ha b hb
        simp only [List.mem_singleton] at hb
        subst hb
        intro hak
        rw [List.any_eq_true] at hin
        exact hin ⟨a, ha, by simpa using hak⟩

theorem uniqueScan_snd (m1 : List (Nat × List Int)) :
    ∀ m2, (uniqueScan m1 m2).2 =
      m2.filter (fun g2 => !(m1.any (fun g => g.1 == g2.1))) := by
  induction m1 with
  | nil => intro m2; simp [uniqueScan]
  | cons g gs ih =>
      intro m2
      unfold uniqueScan
      by_cases hin : m2.any (fun g2 => g2.1 == g.1) = true
      · rw [if_pos hin, ih]
        unfold eraseKey
        rw [List.filter_filter]
        apply List.filter_congr
        intro g2 _
        by_cases hk : g2.1 = g.1
        · simp [hk]
        · have hk2 : ¬g.1 = g2.1 := fun h => hk h.symm
          have e1 : (g2.1 != g.1) = true := by simp [bne_iff_ne, hk]
          have e2 : (g.1 == g2.1) = false := by
            simp [beq_eq_false_iff_ne, hk2]
          simp [List.any_cons, e1, e2]
      · rw [if_neg hin]
        show (uniqueScan gs m2).2 = _
        rw [ih]
        apply List.filter_congr
        intro g2 hg2
        have hk : ¬g2.1 = g.1 := by
          intro hk
          rw [List.any_eq_true] at hin
          exact hin ⟨g2, hg2, by simpa using hk⟩
        have hk2 : (g.1 == g2.1) = false := by
          simp only [beq_eq_false_iff_ne, ne_eq]
          exact fun h => hk h.symm
        simp [List.any_cons, hk2]

theorem uniqueScan_fst_eq_zero (m1 : List (Nat × List Int)) :
    ∀ m2, m1.Pairwise (fun a b => a.1 ≠ b.1) → (∀ g ∈ m1, g.2 ≠ []) →
      ((uniqueScan m1 m2).1 = 0 ↔
        ∀ g ∈ m1, m2.any (fun g2 => g2.1 == g.1) = true) := by
  induction m1 with
  | nil => intro m2 _ _; simp [uniqueScan]
  | cons g gs ih =>
      intro m2 hdist hne
      rw [List.pairwise_cons] at hdist
      unfold uniqueScan
      by_cases hin : m2.any (fun g2 => g2.1 == g.1) = true
      · rw [if_pos hin]
        rw [ih (eraseKey m2 g.1) hdist.2 (fun g' hg' => hne g' (by simp [hg']))]
        constructor
        · intro hall g' hg'
          rcases List.mem_cons.mp hg' with rfl | hg'
          · exact hin
          · have := hall g' hg'
            rw [List.any_eq_true] at this ⊢
            obtain ⟨g2, hg2, hk⟩ := this
            exact ⟨g2, List.mem_of_mem_filter hg2, hk⟩
        · intro hall g' hg'
          have hky : g'.1 ≠ g.1 := fun h => hdist.1 g' hg' h.symm
          have := hall g' (List.mem_cons_of_mem _ hg')
          rw [List.any_eq_true] at this ⊢
          obtain ⟨g2, hg2, hk⟩ := this
          refine ⟨g2, ?_, hk⟩
          unfold eraseKey
          rw [List.mem_filter]
          refine ⟨hg2, ?_⟩
          have : g2.1 = g'.1 := by simpa using hk
          simp [this, hky]
      · rw [if_neg hin]
        show (uniqueScan gs m2).1 + g.2.length = 0 ↔ _
        constructor
        · intro h0
          exfalso
          have : g.2.length = 0 := by omega
          exact hne g (by simp) (List.length_eq_zero.mp this)
        · intro hall
          exact absurd (hall g (by simp)) hin

/-- **C10.**  `runFindUnique` returns `COMPARE_MATCH` exactly when the two
documents' normalized line hashes are equal as sets — multiplicities are
ignored (a hash occurring a different number of times on the two sides
does not by itself prevent `COMPARE_MATCH`). -/
theorem C10_findUnique_match_iff :
    ∀ (doc1 doc2 : Document) (sec1 sec2 : Sec) (opts : Options),
      runFindUnique doc1 doc2 sec1 sec2 opts = CompareResult.COMPARE_MATCH ↔
        ∀ h : Nat,
          h ∈ (getLines doc1 sec1 opts).map LineRec.hash ↔
          h ∈ (getLines doc2 sec2 opts).map LineRec.hash := by
  intro doc1 doc2 sec1 sec2 opts
  unfold runFindUnique
  set lines1 := getLines doc1 sec1 opts with hl1
  set lines2 := getLines doc2 sec2 opts with hl2
  set m1 := groupByHash lines1 with hm1
  set m2 := groupByHash lines2 with hm2
  have hres : (if (uniqueScan m1 m2).1 = 0 ∧ (uniqueScan m1 m2).2 = [] then
      CompareResult.COMPARE_MATCH else CompareResult.COMPARE_MISMATCH) =
      CompareResult.COMPARE_MATCH ↔
      ((uniqueScan m1 m2).1 = 0 ∧ (uniqueScan m1 m2).2 = []) := by
    split <;> simp_all
  rw [hres]
  rw [uniqueScan_fst_eq_zero m1 m2 (hm1 ▸ groupByHash_keys_distinct lines1)
    (hm1 ▸ groupByHash_nonempty lines1)]
  rw [uniqueScan_snd]
  rw [List.filter_eq_nil_iff]
  constructor
  · rintro ⟨h1, h2⟩ h
    constructor
    · intro hmem
      obtain ⟨ls, hls⟩ := (groupByHash_key_mem lines1 h).mpr hmem
      have := h1 (h, ls) hls
      rw [List.any_eq_true] at this
      obtain ⟨g2, hg2, hk⟩ := this
      refine (groupByHash_key_mem lines2 h).mp ⟨g2.2, ?_⟩
      have : g2.1 = h := by simpa using hk
      rwa [← this, Prod.mk.eta]
    · intro hmem
      obtain ⟨ls, hls⟩ := (groupByHash_key_mem lines2 h).mpr hmem
      have h2' := h2 (h, ls) hls
      have hany : m1.any (fun g => g.1 == h) = true := by
        by_contra hx
        rw [Bool.not_eq_true] at hx
        exact h2' (by simp [hx])
      rw [List.any_eq_true] at hany
      obtain ⟨g, hg, hk⟩ := hany
      refine (groupByHash_key_mem lines1 h).mp ⟨g.2, ?_⟩
      have hgh : g.1 = h := by simpa using hk
      rwa [← hgh, Prod.mk.eta]
  · intro hiff
    constructor
    · intro g hg
      have hk1 : g.1 ∈ lines1.map LineRec.hash :=
        (groupByHash_key_mem lines1 g.1).mp ⟨g.2, Prod.mk.eta ▸ hg⟩
      have hk2 := (hiff g.1).mp hk1
      obtain ⟨ls, hls⟩ := (groupByHash_key_mem lines2 g.1).mpr hk2
      rw [List.any_eq_true]
      exact ⟨(g.1, ls), hls, by simp⟩
    · intro g2 hg2
      have hk2 : g2.1 ∈ lines2.map LineRec.hash :=
        (groupByHash_key_mem lines2 g2.1).mp ⟨g2.2, Prod.mk.eta ▸ hg2⟩
      have hk1 := (hiff g2.1).mpr hk2
      obtain ⟨ls, hls⟩ := (groupByHash_key_mem lines1 g2.1).mpr hk1
      have hany : m1.any (fun g => g.1 == g2.1) = true := by
        rw [List.any_eq_true]
        exact ⟨(g2.1, ls), hls, by simp⟩
      simp [hany]

/-! ## Segments and the LCS engine

The generic LCS engine `DiffCalc` lives in `diff.h`, which is not among
the sources under verification.  The definitions `diffCalc` (and its
helpers `lcsRowAux`, `lcsRows`, `lcsWalk`, `opsToSegs`) are therefore
*modelled from the spec*. -/

/-- `diff_type` of the engine. -/
inductive DiffType where
  | DIFF_MATCH
  | DIFF_IN_1
  | DIFF_IN_2
deriving Repr, DecidableEq

export DiffType (DIFF_MATCH DIFF_IN_1 DIFF_IN_2)

/-- A `diff_info<void>` segment as the callers consume it: `off` indexes
the post-swap side 1 for `DIFF_MATCH`/`DIFF_IN_1` and the post-swap side 2
for `DIFF_IN_2`. -/
structure DiffSeg where
  dtype : DiffType
  off : Nat
  len : Nat
deriving Repr, DecidableEq

/-- One primitive edit: consume an element of side 1 and side 2 (match),
of side 1 only, or of side 2 only. -/
inductive DiffOp where
  | opM
  | op1
  | op2
deriving Repr, DecidableEq

/-- Modelled from the spec: one row of the suffix LCS table.  Given
`nextRow`, the row of LCS lengths for the suffixes of `b` against the tail
of `a`, produce the row against `ai :: tail`. -/
def lcsRowAux {α : Type _} (eq : α → α → Bool) (ai : α) :
    List α → List Nat → List Nat
  | [], _ => [0]
  | bj :: bs, nextRow =>
      let rest := lcsRowAux eq ai bs nextRow.tail
      let here :=
        if eq ai bj then nextRow.tail.headD 0 + 1
        else max (nextRow.headD 0) (rest.headD 0)
      here :: rest

/-- Modelled from the spec: all rows of the suffix LCS table of `a`
against `b`; row `i` holds, at position `j`, the LCS length of `a[i:]` and
`b[j:]`. -/
def lcsRows {α : Type _} (eq : α → α → Bool) : List α → List α → List (List Nat)
  | [], b => [List.replicate (b.length + 1) 0]
  | ai :: rest, b =>
      let rows := lcsRows eq rest b
      lcsRowAux eq ai b (rows.headD []) :: rows

/-- Entry `(i, j)` of the suffix LCS table. -/
def lcsAt (rows : List (List Nat)) (i j : Nat) : Nat :=
  ((rows.get? i).getD []).getD j 0

/-- Modelled from the spec: walk the LCS table from `(i, j)`, preferring a
match, then a side-1 consumption (so IN_1 runs precede IN_2 runs at every
divergence, the order `compareLines` relies on), producing the edit
script. -/
def lcsWalk {α : Type _} (eq : α → α → Bool) (a b : List α)
    (rows : List (List Nat)) : Nat → Nat → Nat → List DiffOp
  | 0, _, _ => []
  | fuel + 1, i, j =>
      match a.get? i, b.get? j with
      | some ai, some bj =>
          if eq ai bj ∧ lcsAt rows i j = lcsAt rows (i + 1) (j + 1) + 1 then
            DiffOp.opM :: lcsWalk eq a b rows fuel (i + 1) (j + 1)
          else if lcsAt rows (i + 1) j = lcsAt rows i j then
            DiffOp.op1 :: lcsWalk eq a b rows fuel (i + 1) j
          else DiffOp.op2 :: lcsWalk eq a b rows fuel i (j + 1)
      | some _, none => List.replicate (a.length - i) DiffOp.op1
      | none, _ => List.replicate (b.length - j) DiffOp.op2

/-- Group an edit script into typed segments carrying side offsets. -/
def opsToSegs : List DiffOp → Nat → Nat → List DiffSeg
  | [], _, _ => []
  | op :: rest, o1, o2 =>
      let t := match op with
        | DiffOp.opM => DIFF_MATCH
        | DiffOp.op1 => DIFF_IN_1
        | DiffOp.op2 => DIFF_IN_2
      let o1' := match op with
        | DiffOp.opM => o1 + 1 | DiffOp.op1 => o1 + 1 | DiffOp.op2 => o1
      let o2' := match op with
        | DiffOp.opM => o2 + 1 | DiffOp.op1 => o2 | DiffOp.op2 => o2 + 1
      let cur := match op with
        | DiffOp.opM => o1 | DiffOp.op1 => o1 | DiffOp.op2 => o2
      match opsToSegs rest o1' o2' with
      | s :: ss =>
          if s.dtype = t then ⟨t, cur, s.len + 1⟩ :: ss
          else ⟨t, cur, 1⟩ :: s :: ss
      | [] => [⟨t, cur, 1⟩]

/-- Modelled from the spec: `DiffCalc<Elem>(v1, v2)()` of `diff.h`.
Returns `(segments, swapped)`: an ordered `{MATCH, IN_1, IN_2}` partition
of both inputs realizing a longest common subsequence, deterministic, and
a flag telling the caller the inputs were exchanged for efficiency.  The
spec reads the percentage thresholds of `compareLines` against the
*shorter* side after the swap, so the model swaps exactly when side 1 is
longer. -/
def diffCalc {α : Type _} (eq : α → α → Bool) (a b : List α) :
    List DiffSeg × Bool :=
  if a.length > b.length then
    (opsToSegs
      (lcsWalk eq b a (lcsRows eq b a) (b.length + a.length + 1) 0 0) 0 0,
     true)
  else
    (opsToSegs
      (lcsWalk eq a b (lcsRows eq a b) (a.length + b.length + 1) 0 0) 0 0,
     false)

/-! ## Tokenizers: `getCharType`, `getSectionChars`, `getLineWords` -/

/-- The three-class character categorizer `charType`. -/
inductive CharType where
  | SPACECHAR
  | ALPHANUMCHAR
  | OTHERCHAR
deriving Repr, DecidableEq

/-- `::IsCharAlphaNumericA`, modelled for ASCII: decimal digits and latin
letters. -/
def isCharAlphaNumericA (b : Nat) : Bool :=
  (48 ≤ b ∧ b ≤ 57) ∨ (65 ≤ b ∧ b ≤ 90) ∨ (97 ≤ b ∧ b ≤ 122)

/-- `getCharType` of `Engine.cpp`. -/
def getCharType (b : Nat) : CharType :=
  if b = 32 ∨ b = 9 then CharType.SPACECHAR
  else if isCharAlphaNumericA b || b == 95 then CharType.ALPHANUMCHAR
  else CharType.OTHERCHAR

/-- `Char` of the engine: a byte plus its position inside the fetched
section.  (Equality, used by the char-level LCS, is by byte only.) -/
structure CharRec where
  ch : Nat
  pos : Nat
deriving Repr, DecidableEq

/-- `Word` of the engine: position and length inside the line plus the
hash.  (Equality, used by the word-level LCS, is by hash only.) -/
structure WordRec where
  pos : Nat
  len : Nat
  hash : Nat
deriving Repr, DecidableEq

def eqChar (a b : CharRec) : Bool := a.ch == b.ch

def eqWord (a b : WordRec) : Bool := a.hash == b.hash

/-- `getSectionChars` of `Engine.cpp`, taking the already-sliced section
bytes: case-fold when `ignoreCase`, emit each byte with its index in the
section, dropping space-class bytes when `ignoreSpaces`. -/
def getSectionChars (opts : Options) (bytes : List Nat) : List CharRec :=
  let line := if opts.ignoreCase then bytes.map toLowerByte else bytes
  (List.range line.length).filterMap (fun i =>
    let b := line.getD i 0
    if !opts.ignoreSpaces || getCharType b != CharType.SPACECHAR then
      some ⟨b, i⟩
    else none)

/-- The scanning loop of `getLineWords`: `rest` are the bytes after the
current position `i`, `word` the word being accumulated of class
`curType`. -/
def wordsLoop (opts : Options) :
    List Nat → Nat → CharType → WordRec → List WordRec
  | [], _, curType, word =>
      if !opts.ignoreSpaces || curType != CharType.SPACECHAR then [word]
      else []
  | b :: rest, i, curType, word =>
      let newType := getCharType b
      if newType = curType then
        wordsLoop opts rest (i + 1) curType
          ⟨word.pos, word.len + 1, Hash word.hash b⟩
      else
        (if !opts.ignoreSpaces || curType != CharType.SPACECHAR then [word]
         else []) ++
        wordsLoop opts rest (i + 1) newType ⟨i, 1, Hash cHashSeed b⟩

/-- `getLineWords` of `Engine.cpp`: split the (case-folded) line into
maximal runs of one character class, dropping space runs when
`ignoreSpaces`. -/
def getLineWords (opts : Options) (bytes : List Nat) : List WordRec :=
  match (if opts.ignoreCase then bytes.map toLowerByte else bytes) with
  | [] => []
  | b :: rest =>
      wordsLoop opts rest 1 (getCharType b) ⟨0, 1, Hash cHashSeed b⟩

/-! ## Data model: block diffs and their info records -/

/-- A `diffLine` entry of `changedLines`: block-relative line index plus
the change sections (line-relative byte ranges). -/
structure ChangedLine where
  line : Int
  changes : List Sec
deriving Repr, DecidableEq

/-- `diff_info<blockDiffInfo>`: a line-level block diff with its attached
info record (`matchBlock` is an index into the block vector). -/
structure BlockDiff where
  btype : DiffType
  off : Int := 0
  len : Int := 0
  moves : List Sec := []
  changedLines : List ChangedLine := []
  matchBlock : Option Nat := none
deriving Repr, DecidableEq

/-- A document together with its normalized lines (`DocCmpInfo`: the view
handle is replaced by the raw lines themselves; the marker mask and
section are irrelevant to the verified claims). -/
structure CmpDoc where
  raw : Document
  lines : List LineRec
deriving Repr

/-- `doc.lines[i].line`. -/
def lineAt (d : CmpDoc) (i : Int) : Int :=
  if h : 0 ≤ i ∧ i.toNat < d.lines.length then (d.lines.get ⟨i.toNat, h.2⟩).line
  else 0

/-- Raw bytes of the document line behind normalized line `i`. -/
def docRawLine (d : CmpDoc) (i : Int) : List Nat :=
  docLine d.raw (lineAt d i)

/-- Byte range `[a, b)` of a line (`getText(view, a + lineOff, b + lineOff)`). -/
def sliceBytes (bytes : List Nat) (a b : Nat) : List Nat :=
  (bytes.drop a).take (b - a)

def wref (ws : List WordRec) (i : Nat) : WordRec := ws.getD i ⟨0, 0, 0⟩

def cref (cs : List CharRec) (i : Nat) : CharRec := cs.getD i ⟨0, 0⟩

/-- `changedLines.back().changes.emplace_back(change)`. -/
def addChangeBack (cs : List ChangedLine) (s : Sec) : List ChangedLine :=
  match cs.getLast? with
  | some last => cs.dropLast ++ [⟨last.line, last.changes ++ [s]⟩]
  | none => cs

/-! ## `compareLines`: intra-line word/char refinement -/

/-- Which branch the char-level refinement of a substitution took. -/
inductive RefineOutcome where
  | wholeMatch
  | prefixSuffix
  | fallthrough
deriving Repr, DecidableEq

/-- `while ((*pSec1)[startMatch] == (*pSec2)[startMatch]) ++startMatch;`
(stops at a byte mismatch; the embedding also stops at the end of either
section, where the C++ loop would read past the buffer — unreachable
while `matchPercentThreshold ≤ 100` since then some byte differs). -/
def commonPrefixLen : List CharRec → List CharRec → Nat
  | a :: as, b :: bs => if a.ch == b.ch then commonPrefixLen as bs + 1 else 0
  | _, _ => 0

/-- The `endMatch` loop of `compareLines`: count matching section suffix
bytes while `(int)pSec2->size() - endMatch - 1 > startMatch`.  The
`e < sec1.length` test totalizes a read the C++ performs out of bounds
when `endMatch` reaches `pSec1->size()` (unreachable in the guarded
branch). -/
def endMatchLoop (sec1 sec2 : List CharRec) (startMatch : Nat) :
    Nat → Nat → Nat
  | 0, e => e
  | fuel + 1, e =>
      if startMatch < sec2.length - e - 1 then
        if e < sec1.length then
          if (cref sec1 (sec1.length - e - 1)).ch
              == (cref sec2 (sec2.length - e - 1)).ch then
            endMatchLoop sec1 sec2 startMatch fuel (e + 1)
          else e
        else e
      else e

/-- The byte range of a run of word segments: from the first word's `pos`
to the end of the last word. -/
def segSpan (words : List WordRec) (sd : DiffSeg) : Nat × Nat :=
  ((wref words sd.off).pos,
   (wref words (sd.off + sd.len - 1)).pos + (wref words (sd.off + sd.len - 1)).len)

/-- The char sequence of one side of a substitution: the section chars of
the replaced word range (`getSectionChars(view, offN + lineOffN, endN + lineOffN)`). -/
def refineSec (opts : Options) (raw : List Nat) (words : List WordRec)
    (sd : DiffSeg) : List CharRec :=
  getSectionChars opts (sliceBytes raw (segSpan words sd).1 (segSpan words sd).2)

/-- Total `DIFF_MATCH` length of a segment list (`matchLen`). -/
def charMatchLen (segs : List DiffSeg) : Nat :=
  segs.foldl
    (fun acc sd => if sd.dtype == DIFF_MATCH then acc + sd.len else acc) 0

/-- Number of `DIFF_MATCH` segments (`matchSections`). -/
def charMatchSections (segs : List DiffSeg) : Nat :=
  segs.foldl
    (fun acc sd => if sd.dtype == DIFF_MATCH then acc + 1 else acc) 0

/-- The residual-span emission of the `matchLen`-threshold branch
(`Engine.cpp` lines 750–770): every `DIFF_IN_1` char segment becomes a
change on the (post-char-swap) side 1, every `DIFF_IN_2` one a change on
side 2, each spanning the segment's first to last char position shifted by
its section offset.  `sw` tells which physical list each side is. -/
def residualChanges (sw : Bool) (pSec1 pSec2 : List CharRec) (o1 o2 : Nat)
    (segs : List DiffSeg) (cA cB : List ChangedLine) :
    List ChangedLine × List ChangedLine :=
  segs.foldl
    (fun (st : List ChangedLine × List ChangedLine) sd =>
      if sd.dtype == DIFF_IN_1 then
        let chOff : Int := ((cref pSec1 sd.off).pos : Int) + (o1 : Int)
        let chLen : Int :=
          ((cref pSec1 (sd.off + sd.len - 1)).pos : Int) + (o1 : Int) + 1
            - chOff
        if sw then (st.1, addChangeBack st.2 ⟨chOff, chLen⟩)
        else (addChangeBack st.1 ⟨chOff, chLen⟩, st.2)
      else if sd.dtype == DIFF_IN_2 then
        let chOff : Int := ((cref pSec2 sd.off).pos : Int) + (o2 : Int)
        let chLen : Int :=
          ((cref pSec2 (sd.off + sd.len - 1)).pos : Int) + (o2 : Int) + 1
            - chOff
        if sw then (addChangeBack st.1 ⟨chOff, chLen⟩, st.2)
        else (st.1, addChangeBack st.2 ⟨chOff, chLen⟩)
      else st)
    (cA, cB)

/-- The middle-residual changes of the common-prefix/suffix branch
(`Engine.cpp` lines 791–814): one change per side from just after the
common prefix to just before the common suffix, each emitted only when its
length is positive. -/
def prefixSuffixChanges (sw : Bool) (pSec1 pSec2 : List CharRec)
    (o1 o2 e1 e2 : Nat) (startMatch endMatch : Nat)
    (cA cB : List ChangedLine) : List ChangedLine × List ChangedLine :=
  let ch1Off : Int := (o1 : Int) +
    (if startMatch ≠ 0 then ((cref pSec1 (startMatch - 1)).pos : Int) + 1
     else 0)
  let ch1Len : Int :=
    (if endMatch ≠ 0 then
      ((cref pSec1 (pSec1.length - endMatch - 1)).pos : Int) + 1 + (o1 : Int)
     else (e1 : Int)) - ch1Off
  let ch2Off : Int := (o2 : Int) +
    (if startMatch ≠ 0 then ((cref pSec2 (startMatch - 1)).pos : Int) + 1
     else 0)
  let ch2Len : Int :=
    (if endMatch ≠ 0 then
      ((cref pSec2 (pSec2.length - endMatch - 1)).pos : Int) + 1 + (o2 : Int)
     else (e2 : Int)) - ch2Off
  let st1 :=
    if ch1Len > 0 then
      if sw then (cA, addChangeBack cB ⟨ch1Off, ch1Len⟩)
      else (addChangeBack cA ⟨ch1Off, ch1Len⟩, cB)
    else (cA, cB)
  if ch2Len > 0 then
    if sw then (addChangeBack st1.1 ⟨ch2Off, ch2Len⟩, st1.2)
    else (st1.1, addChangeBack st1.2 ⟨ch2Off, ch2Len⟩)
  else st1

/-- The `DIFF_IN_1`-followed-by-`DIFF_IN_2` char-level refinement of
`compareLines` (`Engine.cpp` lines 688–824): compare the two replaced word
ranges character by character and, depending on how much matches, emit
residual spans (`wholeMatch`), only the middle between a common prefix and
suffix (`prefixSuffix`), or nothing (`fallthrough`).  `cA`/`cB` are the
`changedLines` lists the post-word-swap `pBlockDiff1`/`pBlockDiff2` point
at; the returned lists are the updated ones, plus the updated
`totalLineMatchLen`. -/
def charRefine (opts : Options) (rawA rawB : List Nat)
    (wordsA wordsB : List WordRec) (ld ld2 : DiffSeg)
    (cA cB : List ChangedLine) (total : Nat) :
    RefineOutcome × List ChangedLine × List ChangedLine × Nat :=
  let off1 := (segSpan wordsA ld).1
  let end1 := (segSpan wordsA ld).2
  let off2 := (segSpan wordsB ld2).1
  let end2 := (segSpan wordsB ld2).2
  let sec1 := refineSec opts rawA wordsA ld
  let sec2 := refineSec opts rawB wordsB ld2
  let dr := diffCalc eqChar sec1 sec2
  let sectionDiffs := dr.1
  let sw := dr.2
  let pSec1 := if sw then sec2 else sec1
  let pSec2 := if sw then sec1 else sec2
  let o1 := if sw then off2 else off1
  let o2 := if sw then off1 else off2
  let e1 := if sw then end2 else end1
  let e2 := if sw then end1 else end2
  let matchLen : Nat := charMatchLen sectionDiffs
  let matchSections : Nat := charMatchSections sectionDiffs
  if matchSections ≠ 0 then
    if opts.matchPercentThreshold ≤ (matchLen * 100) / pSec1.length then
      let emit := residualChanges sw pSec1 pSec2 o1 o2 sectionDiffs cA cB
      (RefineOutcome.wholeMatch, emit.1, emit.2, total + matchLen)
    else
      let startMatch := commonPrefixLen pSec1 pSec2
      let endMatch := endMatchLoop pSec1 pSec2 startMatch (pSec2.length + 1) 0
      if startMatch ≠ 0 ∨ endMatch ≠ 0 then
        let ps := prefixSuffixChanges sw pSec1 pSec2 o1 o2 e1 e2 startMatch
          endMatch cA cB
        (RefineOutcome.prefixSuffix, ps.1, ps.2,
         total + startMatch + endMatch)
      else (RefineOutcome.fallthrough, cA, cB, total)
  else (RefineOutcome.fallthrough, cA, cB, total)

/-- State threaded through the word-segment loop of `compareLines`. -/
structure LineState where
  cA : List ChangedLine
  cB : List ChangedLine
  total : Nat
deriving Repr, DecidableEq

/-- The whole-word-span change the `DIFF_IN_1` arm falls through to
(`Engine.cpp` lines 831–836). -/
def wholeSpanChange (wordsA : List WordRec) (ld : DiffSeg) : Sec :=
  let chOff : Int := (wref wordsA ld.off).pos
  ⟨chOff, ((wref wordsA (ld.off + ld.len - 1)).pos : Int)
            + ((wref wordsA (ld.off + ld.len - 1)).len : Int) - chOff⟩

/-- The segment loop of `compareLines` (`Engine.cpp` lines 667–838):
accumulate matched word length, emit `DIFF_IN_2` spans on side 2, and for
`DIFF_IN_1` either refine a substitution at char level (consuming the
following `DIFF_IN_2` on success), stop altogether (the
`lineDiffsSize == 2` break), or emit the whole word span on side 1. -/
def segLoop (opts : Options) (rawA rawB : List Nat)
    (wordsA wordsB : List WordRec) (lineDiffs : List DiffSeg) :
    Nat → Nat → LineState → LineState
  | 0, _, st => st
  | fuel + 1, i, st =>
      match lineDiffs.get? i with
      | none => st
      | some ld =>
          if ld.dtype == DIFF_MATCH then
            let m := (List.range ld.len).foldl
              (fun acc j => acc + (wref wordsA (ld.off + j)).len) 0
            segLoop opts rawA rawB wordsA wordsB lineDiffs fuel (i + 1)
              ⟨st.cA, st.cB, st.total + m⟩
          else if ld.dtype == DIFF_IN_2 then
            let chOff : Int := (wref wordsB ld.off).pos
            let chLen : Int := ((wref wordsB (ld.off + ld.len - 1)).pos : Int)
              + ((wref wordsB (ld.off + ld.len - 1)).len : Int) - chOff
            segLoop opts rawA rawB wordsA wordsB lineDiffs fuel (i + 1)
              ⟨st.cA, addChangeBack st.cB ⟨chOff, chLen⟩, st.total⟩
          else
            match lineDiffs.get? (i + 1) with
            | some ld2 =>
                if opts.charPrecision && ld2.dtype == DIFF_IN_2 then
                  let r := charRefine opts rawA rawB wordsA wordsB ld ld2
                    st.cA st.cB st.total
                  match r.1 with
                  | RefineOutcome.fallthrough =>
                      if lineDiffs.length == 2 then st
                      else
                        segLoop opts rawA rawB wordsA wordsB lineDiffs fuel
                          (i + 1)
                          ⟨addChangeBack st.cA (wholeSpanChange wordsA ld),
                           st.cB, st.total⟩
                  | _ =>
                      segLoop opts rawA rawB wordsA wordsB lineDiffs fuel
                        (i + 2) ⟨r.2.1, r.2.2.1, r.2.2.2⟩
                else
                  segLoop opts rawA rawB wordsA wordsB lineDiffs fuel (i + 1)
                    ⟨addChangeBack st.cA (wholeSpanChange wordsA ld),
                     st.cB, st.total⟩
            | none =>
                segLoop opts rawA rawB wordsA wordsB lineDiffs fuel (i + 1)
                  ⟨addChangeBack st.cA (wholeSpanChange wordsA ld),
                   st.cB, st.total⟩

/-- Processing of one mapped line pair inside `compareLines`: tokenize the
two lines into words, diff them (honoring the swap flag), push a fresh
`changedLines` entry on both sides, run the segment loop, and pop both
entries again when too small a portion of the lines matches. -/
def procPair (doc1 doc2 : CmpDoc) (bd1 bd2 : BlockDiff) (opts : Options)
    (c1 c2 : List ChangedLine) (line1 line2 : Int) :
    List ChangedLine × List ChangedLine :=
  let raw1 := docRawLine doc1 (bd1.off + line1)
  let raw2 := docRawLine doc2 (bd2.off + line2)
  let lineWords1 := getLineWords opts raw1
  let lineWords2 := getLineWords opts raw2
  let wr := diffCalc eqWord lineWords1 lineWords2
  let lineDiffs := wr.1
  let swapped := wr.2
  let rawA := if swapped then raw2 else raw1
  let rawB := if swapped then raw1 else raw2
  let wordsA := if swapped then lineWords2 else lineWords1
  let wordsB := if swapped then lineWords1 else lineWords2
  let lineA := if swapped then line2 else line1
  let lineB := if swapped then line1 else line2
  let cA0 := (if swapped then c2 else c1) ++ [⟨lineA, []⟩]
  let cB0 := (if swapped then c1 else c2) ++ [⟨lineB, []⟩]
  let lineLenA := wordsA.foldl (fun acc w => acc + w.len) 0
  let lineLenB := wordsB.foldl (fun acc w => acc + w.len) 0
  let st := segLoop opts rawA rawB wordsA wordsB lineDiffs
    (lineDiffs.length + 1) 0 ⟨cA0, cB0, 0⟩
  let kept :=
    if (st.total * 100) / max lineLenA lineLenB < opts.matchPercentThreshold
    then (st.cA.dropLast, st.cB.dropLast)
    else (st.cA, st.cB)
  if swapped then (kept.2, kept.1) else kept

/-- `compareLines` of `Engine.cpp`: walk the chosen line mappings in
ascending `line1` order, skipping pairs whose `line2` does not increase,
and process each surviving pair.  Returns the two blocks' updated
`changedLines` lists. -/
def compareLines (doc1 doc2 : CmpDoc) (bd1 bd2 : BlockDiff)
    (lineMappings : List (Int × Rat × Int)) (opts : Options) :
    List ChangedLine × List ChangedLine :=
  let fin := lineMappings.foldl
    (fun (acc : List ChangedLine × List ChangedLine × Int) lm =>
      if lm.2.2 ≤ acc.2.2 then acc
      else
        let r := procPair doc1 doc2 bd1 bd2 opts acc.1 acc.2.1 lm.1 lm.2.2
        (r.1, r.2, lm.2.2))
    (bd1.changedLines, bd2.changedLines, -1)
  (fin.1, fin.2.1)

/-! ## `compareBlocks`: candidate scoring and greedy assignment search -/

/-- `blockDiffInfo::movedSection`: the length of the first move span
containing `line`, `0` when none does. -/
def movedSection (moves : List Sec) (line : Int) : Int :=
  match moves.find? (fun mv => decide (line ≥ mv.off ∧ line < mv.off + mv.len)) with
  | some mv => mv.len
  | none => 0

/-- `blockDiffInfo::getNextUnmoved`: when `line` lies inside a move span,
the first position after that span; `none` otherwise (where the C++
returns `false` and leaves `line` alone). -/
def getNextUnmoved (moves : List Sec) (line : Int) : Option Int :=
  (moves.find?
      (fun mv => decide (line ≥ mv.off ∧ line < mv.off + mv.len))).map
    (fun mv => mv.off + mv.len)

/-- The index walk of `compareBlocks`' candidate loops: visit `i`,
skipping empty char sequences one step at a time and jumping over move
spans (`--lineN; continue` after `getNextUnmoved`); returns the accepted
indices in order. -/
def walkIdx (chunk : List (List CharRec)) (moves : List Sec) (count : Int) :
    Nat → Int → List Int
  | 0, _ => []
  | fuel + 1, i =>
      if i < count then
        if (chunk.getD i.toNat []).isEmpty then
          walkIdx chunk moves count fuel (i + 1)
        else
          match getNextUnmoved moves i with
          | some j => walkIdx chunk moves count fuel j
          | none => i :: walkIdx chunk moves count fuel (i + 1)
      else []

/-- `getChars`: the char sequences of `linesCount` lines starting at
normalized line `lineOffset`. -/
def getChars (d : CmpDoc) (lineOffset : Int) (linesCount : Int)
    (opts : Options) : List (List CharRec) :=
  (List.range linesCount.toNat).map
    (fun k => getSectionChars opts (docRawLine d (lineOffset + Int.ofNat k)))

/-- `conv_key` of `compareBlocks`. -/
structure ConvKey where
  conv : Rat
  line1 : Int
  line2 : Int
deriving Repr, DecidableEq

/-- `conv_key::operator<`: highest convergence first, ties by smaller
`line1`, then smaller `line2`. -/
def ltConvKey (a b : ConvKey) : Bool :=
  a.conv > b.conv ∨
    (a.conv = b.conv ∧
      (a.line1 < b.line1 ∨ (a.line1 = b.line1 ∧ a.line2 < b.line2)))

/-- `std::set<conv_key>::emplace`, as ordered insertion (an equivalent key
is not inserted — unreachable here since every `(line1, line2)` pair is
offered once). -/
def insertOrdered (k : ConvKey) : List ConvKey → List ConvKey
  | [] => [k]
  | x :: xs =>
      if ltConvKey k x then k :: x :: xs
      else if ltConvKey x k then x :: insertOrdered k xs
      else x :: xs

/-- Scoring of one `(line1, line2)` pair of `compareBlocks`: the
character-count prefilter, then the char-level LCS convergence (`float`,
modelled as `Rat`), inserted into the ordered candidate set when it
reaches the threshold. -/
def candidateFor (opts : Options) (chunk1 chunk2 : List (List CharRec))
    (i j : Int) (s : List ConvKey) : List ConvKey :=
  let pl1 := chunk1.getD i.toNat []
  let pl2 := chunk2.getD j.toNat []
  let minSize := min pl1.length pl2.length
  let maxSize := max pl1.length pl2.length
  if (minSize * 100) / maxSize < opts.matchPercentThreshold then s
  else
    let dr := diffCalc eqChar pl1 pl2
    let conv0 : Rat := dr.1.foldl
      (fun acc ld => if ld.dtype == DIFF_MATCH then acc + (ld.len : Rat)
        else acc) 0
    let lineConvergence := conv0 * 100 / (maxSize : Rat)
    if (opts.matchPercentThreshold : Rat) ≤ lineConvergence then
      insertOrdered ⟨lineConvergence, i, j⟩ s
    else s

/-- The candidate-collection double loop of `compareBlocks`. -/
def buildCands (opts : Options) (chunk1 chunk2 : List (List CharRec))
    (moves1 moves2 : List Sec) (len1 len2 : Int) : List ConvKey :=
  (walkIdx chunk1 moves1 len1 (len1.toNat + 1) 0).foldl
    (fun s i =>
      (walkIdx chunk2 moves2 len2 (len2.toNat + 1) 0).foldl
        (fun s j => candidateFor opts chunk1 chunk2 i j s) s)
    []

/-- State of one greedy assignment run. -/
structure RunState where
  mapping : List (Int × Rat × Int)
  used1 : List Int
  used2 : List Int
  cnt1 : Nat
  cnt2 : Nat
deriving Repr

/-- `std::map<int, std::pair<float,int>>::emplace` keyed by `line1`
(insertion fails silently on an existing key). -/
def insertMapping (m : List (Int × Rat × Int)) (e : Int × Rat × Int) :
    List (Int × Rat × Int) :=
  match m with
  | [] => [e]
  | x :: xs =>
      if e.1 < x.1 then e :: x :: xs
      else if x.1 < e.1 then x :: insertMapping xs e
      else x :: xs

/-- One greedy assignment run of `compareBlocks`: walk the candidate set
from a starting element, accept each pair whose lines are both free, and
stop as soon as either side's lines are exhausted. -/
def greedyRun (count1 count2 : Nat) : List ConvKey → RunState →
    List (Int × Rat × Int)
  | [], st => st.mapping
  | c :: rest, st =>
      if !st.used1.contains c.line1 && !st.used2.contains c.line2 then
        let m' := insertMapping st.mapping (c.line1, c.conv, c.line2)
        if st.cnt1 + 1 == count1 || st.cnt2 + 1 == count2 then m'
        else
          greedyRun count1 count2 rest
            ⟨m', st.used1 ++ [c.line1], st.used2 ++ [c.line2],
             st.cnt1 + 1, st.cnt2 + 1⟩
      else greedyRun count1 count2 rest st

/-- The block convergence of an assignment: sum of the convergences of the
pairs whose `line2` values form the greedy increasing subsequence. -/
def scoreOf (m : List (Int × Rat × Int)) : Rat :=
  (m.foldl
    (fun (acc : Rat × Int) lm =>
      if lm.2.2 > acc.2 then (acc.1 + lm.2.1, lm.2.2) else acc)
    (0, -1)).1

/-- The search over all starting elements of the ordered candidate set,
retaining the first assignment that strictly improves the best block
convergence. -/
def bestMappings (count1 count2 : Nat) (cands : List ConvKey) :
    List (Int × Rat × Int) :=
  ((List.range cands.length).foldl
    (fun (best : Rat × List (Int × Rat × Int)) k =>
      let m := greedyRun count1 count2 (cands.drop k) ⟨[], [], [], 0, 0⟩
      let s := scoreOf m
      if best.1 < s then (s, m) else best)
    ((0 : Rat), [])).2

/-- `compareBlocks` of `Engine.cpp`: collect scored candidates, search for
the best assignment, and hand it to `compareLines` (nonempty guard as in
the source). -/
def compareBlocks (doc1 doc2 : CmpDoc) (bd1 bd2 : BlockDiff)
    (opts : Options) : List ChangedLine × List ChangedLine :=
  let chunk1 := getChars doc1 bd1.off bd1.len opts
  let chunk2 := getChars doc2 bd2.off bd2.len opts
  let cands := buildCands opts chunk1 chunk2 bd1.moves bd2.moves bd1.len
    bd2.len
  let best := bestMappings chunk1.length chunk2.length cands
  if best ≠ [] then compareLines doc1 doc2 bd1 bd2 best opts
  else (bd1.changedLines, bd2.changedLines)

/-! ## The move detector: `findBestMatch`, `resolveMatch`, `findMoves` -/

/-- `MatchInfo` of `Engine.cpp` (`matchDiff` is an index into the block
vector; the C++ leaves the offsets uninitialized until first set). -/
structure MatchInfo where
  lookupOff : Int := 0
  matchDiff : Option Nat := none
  matchOff : Int := 0
  matchLen : Int := 0
deriving Repr, DecidableEq

/-- The two documents' normalized line hashes, all `findMoves` reads. -/
structure MovesCtx where
  lines1 : List Nat
  lines2 : List Nat
deriving Repr

/-- A placeholder block for (unreachable) out-of-range vector accesses. -/
def noBlock : BlockDiff := ⟨DIFF_MATCH, 0, 0, [], [], none⟩

/-- `(*pLookupLines)[i] == (*pMatchLines)[j]` — `Line::operator==` is hash
equality.  Out-of-range reads (undefined in C++, unreachable from the
engine's call sites) compare unequal. -/
def lineEq (xs ys : List Nat) (i j : Int) : Bool :=
  match (if 0 ≤ i then xs.get? i.toNat else none),
        (if 0 ≤ j then ys.get? j.toNat else none) with
  | some a, some b => a == b
  | _, _ => false

/-- The backward extension of `findBestMatch` (`Engine.cpp` lines
454–464): step `lookupStart`/`matchStart` down while in range, above
`matchLastUnmoved`, hash-equal and not on a moved lookup line; then undo
the final step. -/
def extendLeft (lookupLines matchLines : List Nat)
    (lookupBase matchBase : Int) (lookupMoves : List Sec)
    (matchLastUnmoved : Int) : Nat → Int → Int → Int × Int
  | 0, ls, ms => (ls + 1, ms + 1)
  | fuel + 1, ls, ms =>
      if ls ≥ 0 ∧ ms ≥ matchLastUnmoved ∧
          lineEq lookupLines matchLines (lookupBase + ls) (matchBase + ms)
            = true ∧
          movedSection lookupMoves ls = 0 then
        extendLeft lookupLines matchLines lookupBase matchBase lookupMoves
          matchLastUnmoved fuel (ls - 1) (ms - 1)
      else (ls + 1, ms + 1)

/-- The forward extension of `findBestMatch` (`Engine.cpp` lines
466–473): step `lookupEnd`/`matchEnd` up while both stay inside their
blocks, hash-equal and neither lies on a moved line. -/
def extendRight (lookupLines matchLines : List Nat)
    (lookupBase matchBase : Int) (lookupLen matchLen : Int)
    (lookupMoves matchMoves : List Sec) : Nat → Int → Int → Int × Int
  | 0, le, me => (le, me)
  | fuel + 1, le, me =>
      if le < lookupLen ∧ me < matchLen ∧
          lineEq lookupLines matchLines (lookupBase + le) (matchBase + me)
            = true ∧
          movedSection lookupMoves le = 0 ∧ movedSection matchMoves me = 0
      then
        extendRight lookupLines matchLines lookupBase matchBase lookupLen
          matchLen lookupMoves matchMoves fuel (le + 1) (me + 1)
      else (le, me)

/-- The candidate acceptance of `findBestMatch` (`Engine.cpp` lines
477–489), acting on `(mi, minMatchLen)`: a strictly longer run replaces
the best and raises `minMatchLen`; an equally long run nulls `matchDiff`;
a shorter one is ignored. -/
def miUpdate (st : MatchInfo × Int) (lookupStart : Int) (blockIdx : Nat)
    (matchStart : Int) (runLen : Int) : MatchInfo × Int :=
  if st.1.matchLen < runLen then
    (⟨lookupStart, some blockIdx, matchStart, runLen⟩, runLen)
  else if st.1.matchLen = runLen then
    ({ st.1 with matchDiff := none }, st.2)
  else st

/-- The scan of one opposite-type block by `findBestMatch` (`Engine.cpp`
lines 440–490): walk `matchOff`, skip hash mismatches, jump over the
block's own moves (recording `matchLastUnmoved`), extend each hit both
ways and offer the run to `miUpdate`. -/
def scanBlock (lookupLines matchLines : List Nat) (lookupDiff : BlockDiff)
    (lookupOff : Int) (matchIdx : Nat) (matchDiff : BlockDiff) :
    Nat → Int → Int → MatchInfo × Int → MatchInfo × Int
  | 0, _, _, st => st
  | fuel + 1, matchOff, mLU, st =>
      if matchOff < matchDiff.len then
        if !lineEq lookupLines matchLines (lookupDiff.off + lookupOff)
            (matchDiff.off + matchOff) then
          scanBlock lookupLines matchLines lookupDiff lookupOff matchIdx
            matchDiff fuel (matchOff + 1) mLU st
        else
          match getNextUnmoved matchDiff.moves matchOff with
          | some j =>
              scanBlock lookupLines matchLines lookupDiff lookupOff matchIdx
                matchDiff fuel j j st
          | none =>
              let s := extendLeft lookupLines matchLines lookupDiff.off
                matchDiff.off lookupDiff.moves mLU
                ((lookupOff + 1).toNat + 1) (lookupOff - 1) (matchOff - 1)
              let e := extendRight lookupLines matchLines lookupDiff.off
                matchDiff.off lookupDiff.len matchDiff.len lookupDiff.moves
                matchDiff.moves ((lookupDiff.len - lookupOff).toNat + 1)
                (lookupOff + 1) (matchOff + 1)
              let runLen := e.1 - s.1
              scanBlock lookupLines matchLines lookupDiff lookupOff matchIdx
                matchDiff fuel (matchOff + 1) mLU
                (miUpdate st s.1 matchIdx s.2 runLen)
      else st

/-- `findBestMatch` of `Engine.cpp`: scan every block of the opposite
type (skipping those shorter than `minMatchLen`) for the best single
matching run around `lookupOff`. -/
def findBestMatch (ctx : MovesCtx) (blocks : List BlockDiff)
    (lookupDiff : BlockDiff) (lookupOff : Int) : MatchInfo :=
  let dir :=
    if lookupDiff.btype = DIFF_IN_1 then (ctx.lines1, ctx.lines2, DIFF_IN_2)
    else (ctx.lines2, ctx.lines1, DIFF_IN_1)
  (blocks.enum.foldl
    (fun (st : MatchInfo × Int) p =>
      if p.2.btype ≠ dir.2.2 ∨ p.2.len < st.2 then st
      else
        scanBlock dir.1 dir.2.1 lookupDiff lookupOff p.1 p.2
          (p.2.len.toNat + 1) 0 0 st)
    (⟨0, none, 0, 0⟩, 1)).1

/-- Append a move span to `blocks[idx].info.moves`. -/
def appendMove (blocks : List BlockDiff) (idx : Nat) (s : Sec) :
    List BlockDiff :=
  match blocks.get? idx with
  | some bd => blocks.set idx { bd with moves := bd.moves ++ [s] }
  | none => blocks

/-- `resolveMatch` of `Engine.cpp`: check the reciprocal best match; when
it points back, commit the pair of spans to both blocks' `moves` lists;
when it points at a third block, recurse there and zero
`lookupMi.matchLen`.  Returns the updated blocks, the success flag, and
the (possibly zeroed) `lookupMi`.  The C++ recursion depth is unbounded;
`fuel` exhaustion (unreachable with the generous fuel the callers pass)
resolves to `false`. -/
def resolveMatch (ctx : MovesCtx) :
    Nat → List BlockDiff → Nat → Int → MatchInfo →
    List BlockDiff × Bool × MatchInfo
  | 0, blocks, _, _, mi => (blocks, false, mi)
  | fuel + 1, blocks, lookupIdx, lookupOff, lookupMi =>
      match lookupMi.matchDiff with
      | none => (blocks, false, lookupMi)
      | some mIdx =>
          let lookupOff' := lookupMi.matchOff + (lookupOff - lookupMi.lookupOff)
          let matchBlock := blocks.getD mIdx noBlock
          let reverseMi := findBestMatch ctx blocks matchBlock lookupOff'
          if reverseMi.matchDiff = some lookupIdx then
            let blocks' := appendMove
              (appendMove blocks lookupIdx ⟨lookupMi.lookupOff, lookupMi.matchLen⟩)
              mIdx ⟨lookupMi.matchOff, lookupMi.matchLen⟩
            (blocks', true, lookupMi)
          else
            match reverseMi.matchDiff with
            | some _ =>
                let r := resolveMatch ctx fuel blocks mIdx lookupOff' reverseMi
                (r.1, r.2.1, { lookupMi with matchLen := 0 })
            | none => (blocks, false, lookupMi)

/-- The per-element loop of `findMoves` over one `DIFF_IN_1` block: skip
positions already inside moves, try to match and resolve each element,
and advance past a committed span (or stay for a zeroed `matchLen`).
Returns the updated blocks and whether any match was committed. -/
def eiLoop (ctx : MovesCtx) (resolveFuel : Nat) :
    Nat → List BlockDiff → Nat → Int → List BlockDiff × Bool
  | 0, blocks, _, _ => (blocks, false)
  | fuel + 1, blocks, lookupIdx, ei =>
      let lookupDiff := blocks.getD lookupIdx noBlock
      if ei < lookupDiff.len then
        match getNextUnmoved lookupDiff.moves ei with
        | some j => eiLoop ctx resolveFuel fuel blocks lookupIdx j
        | none =>
            let mi := findBestMatch ctx blocks lookupDiff ei
            let r := resolveMatch ctx resolveFuel blocks lookupIdx ei mi
            if r.2.1 then
              let ei' := if r.2.2.matchLen ≠ 0 then
                  r.2.2.lookupOff + r.2.2.matchLen
                else ei
              ((eiLoop ctx resolveFuel fuel r.1 lookupIdx ei').1, true)
            else eiLoop ctx resolveFuel fuel blocks lookupIdx (ei + 1)
      else (blocks, false)

/-- One pass of `findMoves` over all `DIFF_IN_1` blocks. -/
def movesPass (ctx : MovesCtx) (resolveFuel eiFuel : Nat)
    (blocks : List BlockDiff) : List BlockDiff × Bool :=
  (List.range blocks.length).foldl
    (fun (st : List BlockDiff × Bool) idx =>
      if (st.1.getD idx noBlock).btype = DIFF_IN_1 then
        let r := eiLoop ctx resolveFuel eiFuel st.1 idx 0
        (r.1, st.2 || r.2)
      else st)
    (blocks, false)

/-- `findMoves` of `Engine.cpp`: repeat the pass until it commits
nothing.  `fuel` bounds the number of passes (the C++ argues termination
by the strict decrease of unmoved positions). -/
def findMoves (ctx : MovesCtx) (resolveFuel eiFuel : Nat) :
    Nat → List BlockDiff → List BlockDiff
  | 0, blocks => blocks
  | fuel + 1, blocks =>
      let r := movesPass ctx resolveFuel eiFuel blocks
      if r.2 then findMoves ctx resolveFuel eiFuel fuel r.1 else r.1

/-! ## Claim C1: candidate selection in `findBestMatch` -/

/-- A fold preserves any invariant its step preserves. -/
theorem foldl_preserve {α β : Type _} (P : β → Prop) (f : β → α → β)
    (h : ∀ st x, P st → P (f st x)) :
    ∀ (l : List α) (init : β), P init → P (l.foldl f init) := by
  intro l
  induction l with
  | nil => intro init hi; exact hi
  | cons x xs ih => intro init hi; exact ih _ (h init x hi)

theorem extendLeft_fst_le (L M : List Nat) (lb mb : Int) (lm : List Sec)
    (mlu : Int) :
    ∀ (fuel : Nat) (ls ms : Int),
      (extendLeft L M lb mb lm mlu fuel ls ms).1 ≤ ls + 1 := by
  intro fuel
  induction fuel with
  | zero => intro ls ms; simp [extendLeft]
  | succ n ih =>
      intro ls ms
      unfold extendLeft
      split
      · exact le_trans (ih (ls - 1) (ms - 1)) (by omega)
      · omega

theorem extendRight_fst_ge (L M : List Nat) (lb mb : Int) (ll ml : Int)
    (lm mm : List Sec) :
    ∀ (fuel : Nat) (le me : Int),
      le ≤ (extendRight L M lb mb ll ml lm mm fuel le me).1 := by
  intro fuel
  induction fuel with
  | zero => intro le me; simp [extendRight]
  | succ n ih =>
      intro le me
      unfold extendRight
      split
      · exact le_trans (by omega) (ih (le + 1) (me + 1))
      · omega

/-- The invariant behind "minimum accepted match length is 1". -/
def miLenInv (st : MatchInfo × Int) : Prop :=
  st.1.matchDiff ≠ none → 1 ≤ st.1.matchLen

theorem miUpdate_inv (st : MatchInfo × Int) (ls : Int) (bi : Nat)
    (ms runLen : Int) (hrun : 1 ≤ runLen) (hst : miLenInv st) :
    miLenInv (miUpdate st ls bi ms runLen) := by
  unfold miUpdate miLenInv
  split
  · intro _; exact hrun
  · split
    · intro h; simp at h
    · exact hst

theorem scanBlock_inv (L M : List Nat) (ld : BlockDiff) (off : Int)
    (bi : Nat) (md : BlockDiff) :
    ∀ (fuel : Nat) (mo mlu : Int) (st : MatchInfo × Int),
      miLenInv st → miLenInv (scanBlock L M ld off bi md fuel mo mlu st) := by
  intro fuel
  induction fuel with
  | zero => intro mo mlu st hst; exact hst
  | succ n ih =>
      intro mo mlu st hst
      unfold scanBlock
      split
      · split
        · exact ih _ _ _ hst
        · split
          · exact ih _ _ _ hst
          · refine ih _ _ _ (miUpdate_inv _ _ _ _ _ ?_ hst)
            have h1 := extendRight_fst_ge L M ld.off md.off ld.len md.len
              ld.moves md.moves ((ld.len - off).toNat + 1) (off + 1) (mo + 1)
            have h2 := extendLeft_fst_le L M ld.off md.off ld.moves mlu
              ((off + 1).toNat + 1) (off - 1) (mo - 1)
            omega
      · exact hst

/-- **C1.**  In `findBestMatch`, a candidate run replaces the current best
only when its length strictly exceeds the best length seen so far; a later
candidate run of exactly equal length — in particular one from a different
block — nulls `matchDiff` (the lookup position is rejected as ambiguous);
and any accepted match has length at least 1. -/
theorem C1_findBestMatch_selection :
    (∀ (st : MatchInfo × Int) (ls : Int) (bi : Nat) (ms runLen : Int),
      (st.1.matchLen < runLen →
        miUpdate st ls bi ms runLen = (⟨ls, some bi, ms, runLen⟩, runLen)) ∧
      (st.1.matchLen = runLen →
        (miUpdate st ls bi ms runLen).1.matchDiff = none) ∧
      (runLen < st.1.matchLen → miUpdate st ls bi ms runLen = st)) ∧
    (∀ (ctx : MovesCtx) (blocks : List BlockDiff) (ld : BlockDiff)
      (off : Int),
      (findBestMatch ctx blocks ld off).matchDiff ≠ none →
      1 ≤ (findBestMatch ctx blocks ld off).matchLen) := by
  constructor
  · intro st ls bi ms runLen
    refine ⟨?_, ?_, ?_⟩
    · intro h; unfold miUpdate; rw [if_pos h]
    · intro h
      unfold miUpdate
      rw [if_neg (by omega), if_pos h]
    · intro h
      unfold miUpdate
      rw [if_neg (by omega), if_neg (by omega)]
  · intro ctx blocks ld off
    unfold findBestMatch
    refine foldl_preserve miLenInv _ ?_ blocks.enum (⟨0, none, 0, 0⟩, 1) ?_
    · intro st x hst
      split <;> split <;>
        first
          | exact hst
          | exact scanBlock_inv _ _ _ _ _ _ _ _ _ _ hst
    · intro h; simp at h

/-- Witness for `C1_findBestMatch_selection` at concrete inputs: a longer
run replaces, an equal run nulls, a shorter run is ignored, and a found
best match has length `≥ 1`. -/
theorem C1_findBestMatch_selection_witness :
    miUpdate (⟨0, none, 0, 0⟩, 1) 0 2 1 1 = (⟨0, some 2, 1, 1⟩, 1) ∧
    (miUpdate (⟨0, some 2, 1, 1⟩, 1) 5 0 5 1).1.matchDiff = none ∧
    miUpdate (⟨0, some 2, 1, 2⟩, 2) 5 0 5 1 = (⟨0, some 2, 1, 2⟩, 2) ∧
    1 ≤ (findBestMatch ⟨[7], [7]⟩
      [⟨DIFF_IN_2, 0, 1, [], [], none⟩] ⟨DIFF_IN_1, 0, 1, [], [], none⟩
      0).matchLen := by
  refine ⟨?_, ?_, ?_, ?_⟩
  · exact (C1_findBestMatch_selection.1 (⟨0, none, 0, 0⟩, 1) 0 2 1 1).1
      (by decide)
  · exact (C1_findBestMatch_selection.1 (⟨0, some 2, 1, 1⟩, 1) 5 0 5 1).2.1
      (by decide)
  · exact (C1_findBestMatch_selection.1 (⟨0, some 2, 1, 2⟩, 2) 5 0 5 1).2.2
      (by decide)
  · exact C1_findBestMatch_selection.2 ⟨[7], [7]⟩
      [⟨DIFF_IN_2, 0, 1, [], [], none⟩] ⟨DIFF_IN_1, 0, 1, [], [], none⟩ 0
      (by decide)

/-! ## Claim C2: the move spans after `findMoves` -/

/-- The property claim C2 asserts of every block after the move detector:
moves sorted ascending by offset, pairwise disjoint, and inside
`[0, block.len)`. -/
def movesSortedDisjointBounded (blocks : List BlockDiff) : Prop :=
  ∀ bd ∈ blocks,
    bd.moves.Pairwise (fun a b => a.off ≤ b.off) ∧
    bd.moves.Pairwise
      (fun a b => a.off + a.len ≤ b.off ∨ b.off + b.len ≤ a.off) ∧
    ∀ s ∈ bd.moves, 0 ≤ s.off ∧ s.off + s.len ≤ bd.len

/-- The bounds part alone: every move span lies within `[0, block.len)`. -/
def blocksBounds (blocks : List BlockDiff) : Prop :=
  ∀ bd ∈ blocks, ∀ s ∈ bd.moves, 0 ≤ s.off ∧ s.off + s.len ≤ bd.len

theorem getNextUnmoved_gt (moves : List Sec) (i j : Int)
    (h : getNextUnmoved moves i = some j) : i < j := by
  unfold getNextUnmoved at h
  cases hf : moves.find?
      (fun mv => decide (i ≥ mv.off ∧ i < mv.off + mv.len)) with
  | none => rw [hf] at h; simp at h
  | some mv =>
      rw [hf] at h
      have h : mv.off + mv.len = j := Option.some.inj h
      have hp := List.find?_some hf
      rw [decide_eq_true_iff] at hp
      omega

theorem extendLeft_bounds (L M : List Nat) (lb mb : Int) (lm : List Sec)
    (mlu : Int) :
    ∀ (fuel : Nat) (ls ms : Int), -1 ≤ ls → mlu - 1 ≤ ms →
      0 ≤ (extendLeft L M lb mb lm mlu fuel ls ms).1 ∧
      mlu ≤ (extendLeft L M lb mb lm mlu fuel ls ms).2 ∧
      (extendLeft L M lb mb lm mlu fuel ls ms).2
        - (extendLeft L M lb mb lm mlu fuel ls ms).1 = ms - ls := by
  intro fuel
  induction fuel with
  | zero =>
      intro ls ms h1 h2
      refine ⟨by simp [extendLeft]; omega, by simp [extendLeft]; omega, ?_⟩
      simp [extendLeft]
  | succ n ih =>
      intro ls ms h1 h2
      unfold extendLeft
      split
      · rename_i hc
        have := ih (ls - 1) (ms - 1) (by omega) (by omega)
        refine ⟨this.1, this.2.1, ?_⟩
        rw [this.2.2]; omega
      · exact ⟨by omega, by omega, by omega⟩

theorem extendRight_bounds (L M : List Nat) (lb mb : Int) (ll ml : Int)
    (lm mm : List Sec) :
    ∀ (fuel : Nat) (le me : Int), le ≤ ll → me ≤ ml →
      (extendRight L M lb mb ll ml lm mm fuel le me).1 ≤ ll ∧
      (extendRight L M lb mb ll ml lm mm fuel le me).2 ≤ ml ∧
      (extendRight L M lb mb ll ml lm mm fuel le me).2
        - (extendRight L M lb mb ll ml lm mm fuel le me).1 = me - le := by
  intro fuel
  induction fuel with
  | zero =>
      intro le me h1 h2
      exact ⟨by simpa [extendRight] using h1, by simpa [extendRight] using h2,
        by simp [extendRight]⟩
  | succ n ih =>
      intro le me h1 h2
      unfold extendRight
      split
      · rename_i hc
        have := ih (le + 1) (me + 1) (by omega) (by omega)
        refine ⟨this.1, this.2.1, ?_⟩
        rw [this.2.2]; omega
      · exact ⟨h1, h2, by omega⟩

/-- The bounds `findBestMatch` guarantees of its result: when a best
match was found, the lookup run contains `lookupOff` and lies inside the
lookup block, and the matched run lies inside the matched block. -/
def MiOk (ld : BlockDiff) (lookupOff : Int) (blocks : List BlockDiff)
    (mi : MatchInfo) : Prop :=
  ∀ j, mi.matchDiff = some j →
    j < blocks.length ∧
    mi.lookupOff ≤ lookupOff ∧
    lookupOff < mi.lookupOff + mi.matchLen ∧
    0 ≤ mi.lookupOff ∧ mi.lookupOff + mi.matchLen ≤ ld.len ∧
    0 ≤ mi.matchOff ∧
    mi.matchOff + mi.matchLen ≤ (blocks.getD j noBlock).len

/-- `MiOk` read off the `(mi, minMatchLen)` scan state. -/
def FBMOk (ld : BlockDiff) (lookupOff : Int) (blocks : List BlockDiff)
    (st : MatchInfo × Int) : Prop :=
  MiOk ld lookupOff blocks st.1

theorem miUpdate_FBMOk (ld : BlockDiff) (lookupOff : Int)
    (blocks : List BlockDiff) (st : MatchInfo × Int) (ls : Int) (bi : Nat)
    (ms runLen : Int)
    (hbi : bi < blocks.length)
    (hcand : ls ≤ lookupOff ∧ lookupOff < ls + runLen ∧ 0 ≤ ls ∧
      ls + runLen ≤ ld.len ∧ 0 ≤ ms ∧
      ms + runLen ≤ (blocks.getD bi noBlock).len)
    (hst : FBMOk ld lookupOff blocks st) :
    FBMOk ld lookupOff blocks (miUpdate st ls bi ms runLen) := by
  unfold FBMOk MiOk miUpdate
  split
  · intro j hj
    have hj' : bi = j := by simpa using hj
    subst hj'
    exact ⟨hbi, hcand.1, hcand.2.1, hcand.2.2.1, hcand.2.2.2.1,
      hcand.2.2.2.2.1, hcand.2.2.2.2.2⟩
  · split
    · intro j hj; simp at hj
    · exact hst

theorem scanBlock_FBMOk (L M : List Nat) (ld : BlockDiff) (lookupOff : Int)
    (bi : Nat) (md : BlockDiff) (blocks : List BlockDiff)
    (hoff0 : 0 ≤ lookupOff) (hoffl : lookupOff < ld.len)
    (hbi : bi < blocks.length) (hmd : md = blocks.getD bi noBlock) :
    ∀ (fuel : Nat) (mo mlu : Int) (st : MatchInfo × Int),
      0 ≤ mlu → mlu ≤ mo → FBMOk ld lookupOff blocks st →
      FBMOk ld lookupOff blocks
        (scanBlock L M ld lookupOff bi md fuel mo mlu st) := by
  intro fuel
  induction fuel with
  | zero => intro mo mlu st _ _ hst; exact hst
  | succ n ih =>
      intro mo mlu st hmlu0 hmlumo hst
      unfold scanBlock
      split
      · rename_i hmo
        split
        · exact ih (mo + 1) mlu st hmlu0 (by omega) hst
        · split
          · rename_i j hj
            have hgt := getNextUnmoved_gt md.moves mo j hj
            exact ih j j st (by omega) (by omega) hst
          · refine ih (mo + 1) mlu _ hmlu0 (by omega) ?_
            have hL := extendLeft_bounds L M ld.off md.off ld.moves mlu
              ((lookupOff + 1).toNat + 1) (lookupOff - 1) (mo - 1)
              (by omega) (by omega)
            have hLle := extendLeft_fst_le L M ld.off md.off ld.moves mlu
              ((lookupOff + 1).toNat + 1) (lookupOff - 1) (mo - 1)
            have hR := extendRight_bounds L M ld.off md.off ld.len md.len
              ld.moves md.moves ((ld.len - lookupOff).toNat + 1)
              (lookupOff + 1) (mo + 1) (by omega) (by omega)
            have hRge := extendRight_fst_ge L M ld.off md.off ld.len md.len
              ld.moves md.moves ((ld.len - lookupOff).toNat + 1)
              (lookupOff + 1) (mo + 1)
            refine miUpdate_FBMOk ld lookupOff blocks st _ bi _ _ hbi
              ⟨by omega, by omega, by omega, by omega, by omega, ?_⟩ hst
            rw [← hmd]
            omega
      · exact hst

theorem findBestMatch_Ok (ctx : MovesCtx) (blocks : List BlockDiff)
    (ld : BlockDiff) (off : Int) (hoff0 : 0 ≤ off) (hoffl : off < ld.len) :
    MiOk ld off blocks (findBestMatch ctx blocks ld off) := by
  have key : ∀ (l : List (Nat × BlockDiff)),
      (∀ p ∈ l, p.1 < blocks.length ∧ p.2 = blocks.getD p.1 noBlock) →
      ∀ (L M : List Nat) (mt : DiffType) (st : MatchInfo × Int),
        FBMOk ld off blocks st →
        FBMOk ld off blocks
          (l.foldl
            (fun (st : MatchInfo × Int) p =>
              if p.2.btype ≠ mt ∨ p.2.len < st.2 then st
              else scanBlock L M ld off p.1 p.2 (p.2.len.toNat + 1) 0 0 st)
            st) := by
    intro l
    induction l with
    | nil => intro _ L M mt st hst; exact hst
    | cons p ps ih =>
        intro hmem L M mt st hst
        rw [List.foldl_cons]
        refine ih (fun q hq => hmem q (List.mem_cons_of_mem _ hq)) L M mt _ ?_
        have hp := hmem p (List.mem_cons_self _ _)
        split
        · exact hst
        · exact scanBlock_FBMOk L M ld off p.1 p.2 blocks hoff0 hoffl hp.1
            hp.2 (p.2.len.toNat + 1) 0 0 st (by omega) (by omega) hst
  have henum : ∀ p ∈ blocks.enum,
      p.1 < blocks.length ∧ p.2 = blocks.getD p.1 noBlock := by
    intro p hp
    rw [List.mem_enum_iff_getElem?] at hp
    constructor
    · exact (List.getElem?_eq_some.mp hp).1
    · rw [List.getD_eq_getElem?_getD, hp]
      rfl
  have hinit : FBMOk ld off blocks (⟨0, none, 0, 0⟩, 1) := by
    intro j hj; simp at hj
  unfold findBestMatch
  exact key blocks.enum henum _ _ _ _ hinit

theorem mem_set_cases {α : Type _} (v x : α) :
    ∀ (l : List α) (i : Nat), x ∈ l.set i v → x = v ∨ x ∈ l := by
  intro l
  induction l with
  | nil => intro i h; simp at h
  | cons a as ih =>
      intro i h
      cases i with
      | zero =>
          rw [List.set_cons_zero] at h
          rcases List.mem_cons.mp h with h | h
          · exact Or.inl h
          · exact Or.inr (List.mem_cons_of_mem _ h)
      | succ n =>
          rw [List.set_cons_succ] at h
          rcases List.mem_cons.mp h with h | h
          · exact Or.inr (h ▸ List.mem_cons_self _ _)
          · rcases ih n h with h | h
            · exact Or.inl h
            · exact Or.inr (List.mem_cons_of_mem _ h)

theorem appendMove_length (blocks : List BlockDiff) (idx : Nat) (s : Sec) :
    (appendMove blocks idx s).length = blocks.length := by
  unfold appendMove
  cases blocks.get? idx
  · rfl
  · exact List.length_set blocks idx _

theorem appendMove_getD_len (blocks : List BlockDiff) (idx : Nat) (s : Sec)
    (k : Nat) :
    ((appendMove blocks idx s).getD k noBlock).len
      = (blocks.getD k noBlock).len := by
  unfold appendMove
  cases hg : blocks.get? idx with
  | none => rfl
  | some bd =>
      rw [List.getD_eq_getElem?_getD, List.getD_eq_getElem?_getD]
      by_cases hk : idx = k
      · subst hk
        have hlt : idx < blocks.length := by
          rw [List.get?_eq_getElem?] at hg
          exact (List.getElem?_eq_some.mp hg).1
        have hbd : blocks[idx]? = some bd := by
          rw [← List.get?_eq_getElem?]; exact hg
        rw [List.getElem?_set_self' ]
        rw [hbd]
        rfl
      · rw [List.getElem?_set_ne hk]

theorem appendMove_bounds (blocks : List BlockDiff) (idx : Nat) (s : Sec)
    (hb : blocksBounds blocks)
    (hs : 0 ≤ s.off ∧ s.off + s.len ≤ (blocks.getD idx noBlock).len) :
    blocksBounds (appendMove blocks idx s) := by
  unfold appendMove
  cases hg : blocks.get? idx with
  | none => exact hb
  | some bd =>
      intro bd' hbd' s' hs'
      rcases mem_set_cases _ _ _ _ hbd' with rfl | hmem
      · have hbdmem : bd ∈ blocks := List.get?_mem hg
        have hlen : (blocks.getD idx noBlock) = bd := by
          rw [List.getD_eq_getElem?_getD, ← List.get?_eq_getElem?, hg]
          rfl
        simp only at hs'
        rcases List.mem_append.mp hs' with hs' | hs'
        · exact hb bd hbdmem s' hs'
        · simp only [List.mem_singleton] at hs'
          subst hs'
          rw [hlen] at hs
          exact hs
      · exact hb _ hmem s' hs'

theorem resolveMatch_bounds (ctx : MovesCtx) :
    ∀ (fuel : Nat) (blocks : List BlockDiff) (li : Nat) (off : Int)
      (mi : MatchInfo),
      blocksBounds blocks →
      MiOk (blocks.getD li noBlock) off blocks mi →
      blocksBounds (resolveMatch ctx fuel blocks li off mi).1 ∧
      ((resolveMatch ctx fuel blocks li off mi).2.1 = true →
        (resolveMatch ctx fuel blocks li off mi).2.2.matchLen = 0 ∨
        (0 ≤ (resolveMatch ctx fuel blocks li off mi).2.2.lookupOff ∧
          1 ≤ (resolveMatch ctx fuel blocks li off mi).2.2.matchLen)) := by
  intro fuel
  induction fuel with
  | zero =>
      intro blocks li off mi hb _
      exact ⟨hb, by intro h; simp [resolveMatch] at h⟩
  | succ n ih =>
      intro blocks li off mi hb hmi
      unfold resolveMatch
      cases hmd : mi.matchDiff with
      | none => exact ⟨hb, by intro h; simp at h⟩
      | some mIdx =>
          have hok := hmi mIdx hmd
          dsimp only
          split
          · rename_i hrev
            refine ⟨?_, ?_⟩
            · refine appendMove_bounds
                (appendMove blocks li ⟨mi.lookupOff, mi.matchLen⟩) mIdx
                ⟨mi.matchOff, mi.matchLen⟩
                (appendMove_bounds blocks li ⟨mi.lookupOff, mi.matchLen⟩ hb
                  ⟨hok.2.2.2.1, hok.2.2.2.2.1⟩) ?_
              rw [appendMove_getD_len]
              exact ⟨hok.2.2.2.2.2.1, hok.2.2.2.2.2.2⟩
            · intro _
              right
              show 0 ≤ mi.lookupOff ∧ 1 ≤ mi.matchLen
              exact ⟨hok.2.2.2.1, by omega⟩
          · split
            · rename_i k hrevsome
              have hoff'0 : 0 ≤ mi.matchOff + (off - mi.lookupOff) := by
                omega
              have hoff'l : mi.matchOff + (off - mi.lookupOff)
                  < (blocks.getD mIdx noBlock).len := by omega
              have hrmi := findBestMatch_Ok ctx blocks
                (blocks.getD mIdx noBlock)
                (mi.matchOff + (off - mi.lookupOff)) hoff'0 hoff'l
              have hrec := ih blocks mIdx (mi.matchOff + (off - mi.lookupOff))
                _ hb hrmi
              exact ⟨hrec.1, fun _ => Or.inl rfl⟩
            · exact ⟨hb, by intro h; simp at h⟩

theorem eiLoop_bounds (ctx : MovesCtx) (rf : Nat) :
    ∀ (fuel : Nat) (blocks : List BlockDiff) (li : Nat) (ei : Int),
      0 ≤ ei → blocksBounds blocks →
      blocksBounds (eiLoop ctx rf fuel blocks li ei).1 := by
  intro fuel
  induction fuel with
  | zero => intro blocks li ei _ hb; exact hb
  | succ n ih =>
      intro blocks li ei hei hb
      unfold eiLoop
      dsimp only
      split
      · rename_i hlt
        split
        · rename_i j hj
          exact ih blocks li j
            (by have := getNextUnmoved_gt _ _ _ hj; omega) hb
        · have hmi := findBestMatch_Ok ctx blocks (blocks.getD li noBlock)
            ei hei hlt
          have hres := resolveMatch_bounds ctx rf blocks li ei
            (findBestMatch ctx blocks (blocks.getD li noBlock) ei) hb hmi
          split
          · rename_i hcommit
            refine ih _ li _ ?_ hres.1
            rcases hres.2 hcommit with hz | hpos
            · rw [if_neg (by simpa using hz)]
              exact hei
            · split
              · omega
              · exact hei
          · exact ih blocks li (ei + 1) (by omega) hb
      · exact hb

theorem movesPass_bounds (ctx : MovesCtx) (rf ef : Nat)
    (blocks : List BlockDiff) (hb : blocksBounds blocks) :
    blocksBounds (movesPass ctx rf ef blocks).1 := by
  unfold movesPass
  refine foldl_preserve
    (fun st : List BlockDiff × Bool => blocksBounds st.1) _ ?_ _ _ hb
  intro st idx hst
  split
  · exact eiLoop_bounds ctx rf ef st.1 idx 0 (by omega) hst
  · exact hst

/-- **C2 (amended).**  After the move detector has run, every span in
every block's `moves` list lies within `[0, block.len)` — provided every
pre-existing span does (in the pipeline the `moves` lists start empty).
The sortedness and disjointness the claim also asserts do *not* hold; see
`C2_moves_sorted_disjoint_cex`. -/
theorem C2_moves_inbounds :
    ∀ (ctx : MovesCtx) (rf ef fuel : Nat) (blocks : List BlockDiff),
      blocksBounds blocks →
      blocksBounds (findMoves ctx rf ef fuel blocks) := by
  intro ctx rf ef fuel
  induction fuel with
  | zero => intro blocks hb; exact hb
  | succ n ih =>
      intro blocks hb
      unfold findMoves
      dsimp only
      split
      · exact ih _ (movesPass_bounds ctx rf ef blocks hb)
      · exact movesPass_bounds ctx rf ef blocks hb

/-- Witness for `C2_moves_inbounds`: an actual move-detector run (the
blocks of docs `[B,C,D]` / `[D,C,B]`) starting from empty `moves` lists
ends with all spans in bounds. -/
theorem C2_moves_inbounds_witness :
    blocksBounds (findMoves ⟨[2, 3, 4], [4, 3, 2]⟩ 20 50 10
      [⟨DIFF_IN_1, 0, 2, [], [], none⟩, ⟨DIFF_MATCH, 2, 1, [], [], none⟩,
       ⟨DIFF_IN_2, 1, 2, [], [], none⟩]) := by
  exact C2_moves_inbounds ⟨[2, 3, 4], [4, 3, 2]⟩ 20 50 10 _
    (by unfold blocksBounds; decide)

/-- **C2, counterexample.**  Two reachable runs of the move detector
violate the claimed `moves` invariants.

*Unsorted:* docs `[B,C,D]` / `[D,C,B]` (hashes `[2,3,4]` / `[4,3,2]`)
with the line LCS `[D]`, giving blocks `IN_1 [B,C]`, `MATCH [D]`,
`IN_2 [C,B]`.  `B` pairs first (spans `(0,1)`/`(1,1)`), then `C` (spans
`(1,1)`/`(0,1)`), so the `IN_2` block's list ends as `[(1,1), (0,1)]` —
descending offsets.

*Overlapping:* docs `[O,P,A,B,C,P,Q,D,E,F]` / `[A,B,C,D,E,F,O,P,Q]`
(unique maximal LCS `[A,B,C,D,E,F]`), blocks `IN_1 [O,P]`, `MATCH`,
`IN_1 [P,Q]`, `MATCH`, `IN_2 [O,P,Q]`.  The first `IN_1` block commits
`[O,P]` against the `IN_2` block's `[0,2)`.  Scanning `Q` of the second
`IN_1` block, the hash mismatches at the `IN_2` block's moved positions
never update `matchLastUnmoved`, so the backward extension walks into the
committed span and the pair `[P,Q]` commits against `[1,3)`: the `IN_2`
block ends with `moves = [(0,2), (1,2)]`, overlapping at position 1. -/
theorem C2_moves_sorted_disjoint_cex :
    ¬ movesSortedDisjointBounded (findMoves ⟨[2, 3, 4], [4, 3, 2]⟩ 20 50 10
      [⟨DIFF_IN_1, 0, 2, [], [], none⟩, ⟨DIFF_MATCH, 2, 1, [], [], none⟩,
       ⟨DIFF_IN_2, 1, 2, [], [], none⟩]) ∧
    ¬ movesSortedDisjointBounded (findMoves
      ⟨[1, 2, 10, 11, 12, 2, 3, 13, 14, 15],
       [10, 11, 12, 13, 14, 15, 1, 2, 3]⟩ 20 50 10
      [⟨DIFF_IN_1, 0, 2, [], [], none⟩, ⟨DIFF_MATCH, 2, 3, [], [], none⟩,
       ⟨DIFF_IN_1, 5, 2, [], [], none⟩, ⟨DIFF_MATCH, 7, 3, [], [], none⟩,
       ⟨DIFF_IN_2, 6, 3, [], [], none⟩]) := by
  constructor <;> (unfold movesSortedDisjointBounded; decide)

/-! ## Claims C8/C9: the whole-line reject and the `changedLines` lockstep -/

/-- Two `changedLines` lists that agree except possibly in their final
entry. -/
def sameButLast (xs ys : List ChangedLine) : Prop :=
  xs.dropLast = ys.dropLast ∧ xs.length = ys.length

theorem sameButLast_refl (xs : List ChangedLine) : sameButLast xs xs :=
  ⟨rfl, rfl⟩

theorem sameButLast_trans {xs ys zs : List ChangedLine}
    (h1 : sameButLast xs ys) (h2 : sameButLast ys zs) : sameButLast xs zs :=
  ⟨h1.1.trans h2.1, h1.2.trans h2.2⟩

theorem addChangeBack_sameButLast (cs : List ChangedLine) (s : Sec) :
    sameButLast (addChangeBack cs s) cs := by
  unfold addChangeBack
  cases hl : cs.getLast? with
  | none => exact sameButLast_refl cs
  | some last =>
      have hne : cs ≠ [] := by
        intro h; rw [h] at hl; simp at hl
      constructor
      · rw [List.dropLast_concat]
      · rw [List.length_append, List.length_dropLast, List.length_singleton]
        have := List.length_pos.mpr hne
        omega

theorem residualChanges_sameButLast (sw : Bool) (p1 p2 : List CharRec)
    (o1 o2 : Nat) (cA cB : List ChangedLine) :
    ∀ segs : List DiffSeg,
      sameButLast (residualChanges sw p1 p2 o1 o2 segs cA cB).1 cA ∧
      sameButLast (residualChanges sw p1 p2 o1 o2 segs cA cB).2 cB := by
  intro segs
  unfold residualChanges
  refine foldl_preserve
    (fun st : List ChangedLine × List ChangedLine =>
      sameButLast st.1 cA ∧ sameButLast st.2 cB) _ ?_ segs (cA, cB)
    ⟨sameButLast_refl cA, sameButLast_refl cB⟩
  intro st sd hst
  dsimp only
  split
  · split
    · exact ⟨hst.1, sameButLast_trans (addChangeBack_sameButLast _ _) hst.2⟩
    · exact ⟨sameButLast_trans (addChangeBack_sameButLast _ _) hst.1, hst.2⟩
  · split
    · split
      · exact ⟨sameButLast_trans (addChangeBack_sameButLast _ _) hst.1,
          hst.2⟩
      · exact ⟨hst.1,
          sameButLast_trans (addChangeBack_sameButLast _ _) hst.2⟩
    · exact hst

theorem addChangeBack_sameButLast2 {xs ys : List ChangedLine}
    (h : sameButLast xs ys) (s : Sec) :
    sameButLast (addChangeBack xs s) ys :=
  sameButLast_trans (addChangeBack_sameButLast xs s) h

theorem prefixSuffixChanges_sameButLast (sw : Bool)
    (pSec1 pSec2 : List CharRec) (o1 o2 e1 e2 : Nat)
    (startMatch endMatch : Nat) (cA cB : List ChangedLine) :
    sameButLast (prefixSuffixChanges sw pSec1 pSec2 o1 o2 e1 e2 startMatch
      endMatch cA cB).1 cA ∧
    sameButLast (prefixSuffixChanges sw pSec1 pSec2 o1 o2 e1 e2 startMatch
      endMatch cA cB).2 cB := by
  unfold prefixSuffixChanges
  dsimp only
  constructor <;>
    · split <;> (try split) <;> (try split) <;> (try split) <;>
        (try split) <;> (try dsimp only) <;>
        first
          | exact sameButLast_refl _
          | exact addChangeBack_sameButLast2 (sameButLast_refl _) _

theorem charRefine_sameButLast (opts : Options) (rawA rawB : List Nat)
    (wordsA wordsB : List WordRec) (ld ld2 : DiffSeg)
    (cA cB : List ChangedLine) (total : Nat) :
    sameButLast
      (charRefine opts rawA rawB wordsA wordsB ld ld2 cA cB total).2.1 cA ∧
    sameButLast
      (charRefine opts rawA rawB wordsA wordsB ld ld2 cA cB total).2.2.1
      cB := by
  unfold charRefine
  dsimp only
  by_cases c1 : charMatchSections
      (diffCalc eqChar (refineSec opts rawA wordsA ld)
        (refineSec opts rawB wordsB ld2)).1 ≠ 0
  · rw [if_pos c1]
    by_cases c2 : opts.matchPercentThreshold ≤
        charMatchLen (diffCalc eqChar (refineSec opts rawA wordsA ld)
          (refineSec opts rawB wordsB ld2)).1 * 100 /
        (if (diffCalc eqChar (refineSec opts rawA wordsA ld)
              (refineSec opts rawB wordsB ld2)).2 = true
         then refineSec opts rawB wordsB ld2
         else refineSec opts rawA wordsA ld).length
    · rw [if_pos c2]
      exact ⟨(residualChanges_sameButLast _ _ _ _ _ cA cB _).1,
        (residualChanges_sameButLast _ _ _ _ _ cA cB _).2⟩
    · rw [if_neg c2]
      by_cases c3 : commonPrefixLen
          (if (diffCalc eqChar (refineSec opts rawA wordsA ld)
                (refineSec opts rawB wordsB ld2)).2 = true
           then refineSec opts rawB wordsB ld2
           else refineSec opts rawA wordsA ld)
          (if (diffCalc eqChar (refineSec opts rawA wordsA ld)
                (refineSec opts rawB wordsB ld2)).2 = true
           then refineSec opts rawA wordsA ld
           else refineSec opts rawB wordsB ld2) ≠ 0 ∨
        endMatchLoop
          (if (diffCalc eqChar (refineSec opts rawA wordsA ld)
                (refineSec opts rawB wordsB ld2)).2 = true
           then refineSec opts rawB wordsB ld2
           else refineSec opts rawA wordsA ld)
          (if (diffCalc eqChar (refineSec opts rawA wordsA ld)
                (refineSec opts rawB wordsB ld2)).2 = true
           then refineSec opts rawA wordsA ld
           else refineSec opts rawB wordsB ld2)
          (commonPrefixLen
            (if (diffCalc eqChar (refineSec opts rawA wordsA ld)
                  (refineSec opts rawB wordsB ld2)).2 = true
             then refineSec opts rawB wordsB ld2
             else refineSec opts rawA wordsA ld)
            (if (diffCalc eqChar (refineSec opts rawA wordsA ld)
                  (refineSec opts rawB wordsB ld2)).2 = true
             then refineSec opts rawA wordsA ld
             else refineSec opts rawB wordsB ld2))
          ((if (diffCalc eqChar (refineSec opts rawA wordsA ld)
                  (refineSec opts rawB wordsB ld2)).2 = true
            then refineSec opts rawA wordsA ld
            else refineSec opts rawB wordsB ld2).length + 1) 0 ≠ 0
      · rw [if_pos c3]
        exact ⟨(prefixSuffixChanges_sameButLast _ _ _ _ _ _ _ _ _ cA cB).1,
          (prefixSuffixChanges_sameButLast _ _ _ _ _ _ _ _ _ cA cB).2⟩
      · rw [if_neg c3]
        exact ⟨sameButLast_refl cA, sameButLast_refl cB⟩
  · rw [if_neg c1]
    exact ⟨sameButLast_refl cA, sameButLast_refl cB⟩

theorem segLoop_sameButLast (opts : Options) (rawA rawB : List Nat)
    (wordsA wordsB : List WordRec) (lineDiffs : List DiffSeg) :
    ∀ (fuel : Nat) (i : Nat) (st : LineState),
      sameButLast
        (segLoop opts rawA rawB wordsA wordsB lineDiffs fuel i st).cA st.cA ∧
      sameButLast
        (segLoop opts rawA rawB wordsA wordsB lineDiffs fuel i st).cB
        st.cB := by
  intro fuel
  induction fuel with
  | zero =>
      intro i st
      exact ⟨sameButLast_refl _, sameButLast_refl _⟩
  | succ n ih =>
      intro i st
      unfold segLoop
      split
      · exact ⟨sameButLast_refl _, sameButLast_refl _⟩
      · rename_i ld hld
        split
        · exact ih (i + 1) _
        · split
          · exact ⟨(ih (i + 1) _).1,
              sameButLast_trans (ih (i + 1) _).2
                (addChangeBack_sameButLast _ _)⟩
          · split
            · rename_i ld2 hld2
              split
              · have h2 := charRefine_sameButLast opts rawA rawB wordsA
                  wordsB ld ld2 st.cA st.cB st.total
                rcases hcr : charRefine opts rawA rawB wordsA wordsB ld ld2
                  st.cA st.cB st.total with ⟨o, cA', cB', t'⟩
                rw [hcr] at h2
                dsimp only at h2 ⊢
                cases o
                · dsimp only
                  exact ⟨sameButLast_trans (ih (i + 2) _).1 h2.1,
                    sameButLast_trans (ih (i + 2) _).2 h2.2⟩
                · dsimp only
                  exact ⟨sameButLast_trans (ih (i + 2) _).1 h2.1,
                    sameButLast_trans (ih (i + 2) _).2 h2.2⟩
                · dsimp only
                  split
                  · exact ⟨sameButLast_refl _, sameButLast_refl _⟩
                  · exact ⟨sameButLast_trans (ih (i + 1) _).1
                      (addChangeBack_sameButLast _ _), (ih (i + 1) _).2⟩
              · exact ⟨sameButLast_trans (ih (i + 1) _).1
                  (addChangeBack_sameButLast _ _), (ih (i + 1) _).2⟩
            · exact ⟨sameButLast_trans (ih (i + 1) _).1
                (addChangeBack_sameButLast _ _), (ih (i + 1) _).2⟩

/-! ## Claim C3: the char-level refinement threshold -/

/-- The post-swap side 1 the char LCS hands back is the shorter input. -/
theorem diffCalc_snd_len {α : Type _} (eq : α → α → Bool) (a b : List α) :
    (if (diffCalc eq a b).2 = true then b else a).length
      = min a.length b.length := by
  unfold diffCalc
  by_cases h : a.length > b.length
  · rw [if_pos h]
    show (if true = true then b else a).length = _
    rw [if_pos rfl]
    omega
  · rw [if_neg h]
    show (if false = true then b else a).length = _
    rw [if_neg (by simp)]
    omega

/-- Neither of the two non-threshold branches yields `wholeMatch`. -/
theorem ite_outcome_ne {γ : Type _} (c : Prop) [Decidable c] (x y : γ) :
    (if c then (RefineOutcome.prefixSuffix, x)
     else (RefineOutcome.fallthrough, y)).1 ≠ RefineOutcome.wholeMatch := by
  split <;> simp

/-- **C3 (amended).**  The residual IN_1/IN_2 char spans are emitted on
their respective sides and the char match length is added to the line's
total match length exactly when the char-level diff has at least one
`MATCH` segment *and* the match length times 100 divided by the shorter
char sequence's length reaches `matchPercentThreshold`; and in that case
the emission is precisely `residualChanges` and the addition precisely the
match length. -/
theorem C3_charRefine_threshold (opts : Options) (rawA rawB : List Nat)
    (wordsA wordsB : List WordRec) (ld ld2 : DiffSeg)
    (cA cB : List ChangedLine) (total : Nat)
    (sec1 sec2 : List CharRec) (dr : List DiffSeg × Bool)
    (hs1 : sec1 = refineSec opts rawA wordsA ld)
    (hs2 : sec2 = refineSec opts rawB wordsB ld2)
    (hdr : dr = diffCalc eqChar sec1 sec2) :
    ((charRefine opts rawA rawB wordsA wordsB ld ld2 cA cB total).1
        = RefineOutcome.wholeMatch ↔
      (charMatchSections dr.1 ≠ 0 ∧
        opts.matchPercentThreshold ≤
          charMatchLen dr.1 * 100 / min sec1.length sec2.length)) ∧
    ((charRefine opts rawA rawB wordsA wordsB ld ld2 cA cB total).1
        = RefineOutcome.wholeMatch →
      (charRefine opts rawA rawB wordsA wordsB ld ld2 cA cB total).2.2.2
        = total + charMatchLen dr.1 ∧
      ((charRefine opts rawA rawB wordsA wordsB ld ld2 cA cB total).2.1,
       (charRefine opts rawA rawB wordsA wordsB ld ld2 cA cB total).2.2.1)
        = residualChanges dr.2 (if dr.2 then sec2 else sec1)
            (if dr.2 then sec1 else sec2)
            (if dr.2 then (segSpan wordsB ld2).1 else (segSpan wordsA ld).1)
            (if dr.2 then (segSpan wordsA ld).1 else (segSpan wordsB ld2).1)
            dr.1 cA cB) := by
  subst hs1
  subst hs2
  subst hdr
  have hmin := diffCalc_snd_len eqChar (refineSec opts rawA wordsA ld)
    (refineSec opts rawB wordsB ld2)
  unfold charRefine
  dsimp only
  rw [hmin]
  by_cases c1 : charMatchSections
      (diffCalc eqChar (refineSec opts rawA wordsA ld)
        (refineSec opts rawB wordsB ld2)).1 ≠ 0
  · rw [if_pos c1]
    by_cases c2 : opts.matchPercentThreshold ≤
        charMatchLen (diffCalc eqChar (refineSec opts rawA wordsA ld)
          (refineSec opts rawB wordsB ld2)).1 * 100 /
          min (refineSec opts rawA wordsA ld).length
            (refineSec opts rawB wordsB ld2).length
    · rw [if_pos c2]
      refine ⟨by simp [c1, c2], ?_⟩
      intro _
      exact ⟨rfl, rfl⟩
    · rw [if_neg c2]
      constructor
      · constructor
        · intro h; exact absurd h (ite_outcome_ne _ _ _)
        · intro h; exact absurd h.2 c2
      · intro h; exact absurd h (ite_outcome_ne _ _ _)
  · rw [if_neg c1]
    refine ⟨by simp [c1], ?_⟩
    intro h
    simp at h

/-- Witness for `C3_charRefine_threshold`: refining the substitution
`"abc"` → `"axc"` (two matching chars of three, threshold 50) takes the
whole-match branch, emits the residual spans and adds the match length. -/
theorem C3_charRefine_threshold_witness :
    (charRefine ⟨false, false, false, false, true, 50⟩ [97, 98, 99]
        [97, 120, 99]
        (getLineWords ⟨false, false, false, false, true, 50⟩ [97, 98, 99])
        (getLineWords ⟨false, false, false, false, true, 50⟩ [97, 120, 99])
        ⟨DIFF_IN_1, 0, 1⟩ ⟨DIFF_IN_2, 0, 1⟩ [⟨0, []⟩] [⟨0, []⟩] 0).2.2.2
      = 0 + charMatchLen (diffCalc eqChar
          (refineSec ⟨false, false, false, false, true, 50⟩ [97, 98, 99]
            (getLineWords ⟨false, false, false, false, true, 50⟩
              [97, 98, 99]) ⟨DIFF_IN_1, 0, 1⟩)
          (refineSec ⟨false, false, false, false, true, 50⟩ [97, 120, 99]
            (getLineWords ⟨false, false, false, false, true, 50⟩
              [97, 120, 99]) ⟨DIFF_IN_2, 0, 1⟩)).1 := by
  exact ((C3_charRefine_threshold ⟨false, false, false, false, true, 50⟩
    [97, 98, 99] [97, 120, 99]
    (getLineWords ⟨false, false, false, false, true, 50⟩ [97, 98, 99])
    (getLineWords ⟨false, false, false, false, true, 50⟩ [97, 120, 99])
    ⟨DIFF_IN_1, 0, 1⟩ ⟨DIFF_IN_2, 0, 1⟩ [⟨0, []⟩] [⟨0, []⟩] 0
    _ _ _ rfl rfl rfl).2 (by decide)).1

/-- **C3, counterexample.**  With `matchPercentThreshold = 0` and a
substitution of two words sharing no character (`"ab"` → `"xy"`), the
claim's condition holds — the char match length `0` times 100 divided by
the shorter length is `0 ≥ 0` — yet the refinement emits nothing and adds
nothing (the code additionally requires a matching char section before it
even reads the threshold). -/
theorem C3_charRefine_threshold_cex :
    (charRefine ⟨false, false, false, false, true, 0⟩ [97, 98] [120, 121]
        (getLineWords ⟨false, false, false, false, true, 0⟩ [97, 98])
        (getLineWords ⟨false, false, false, false, true, 0⟩ [120, 121])
        ⟨DIFF_IN_1, 0, 1⟩ ⟨DIFF_IN_2, 0, 1⟩ [⟨0, []⟩] [⟨0, []⟩] 0)
      = (RefineOutcome.fallthrough, [⟨0, []⟩], [⟨0, []⟩], 0) ∧
    (⟨false, false, false, false, true, 0⟩ : Options).matchPercentThreshold
      ≤ charMatchLen (diffCalc eqChar
          (refineSec ⟨false, false, false, false, true, 0⟩ [97, 98]
            (getLineWords ⟨false, false, false, false, true, 0⟩ [97, 98])
            ⟨DIFF_IN_1, 0, 1⟩)
          (refineSec ⟨false, false, false, false, true, 0⟩ [120, 121]
            (getLineWords ⟨false, false, false, false, true, 0⟩ [120, 121])
            ⟨DIFF_IN_2, 0, 1⟩)).1 * 100 /
        min (refineSec ⟨false, false, false, false, true, 0⟩ [97, 98]
            (getLineWords ⟨false, false, false, false, true, 0⟩ [97, 98])
            ⟨DIFF_IN_1, 0, 1⟩).length
          (refineSec ⟨false, false, false, false, true, 0⟩ [120, 121]
            (getLineWords ⟨false, false, false, false, true, 0⟩ [120, 121])
            ⟨DIFF_IN_2, 0, 1⟩).length := by
  constructor <;> decide

theorem dropLast_snoc {α : Type _} (l : List α) (a : α) :
    (l ++ [a]).dropLast = l := by
  simp

/-- **C8.**  When the fraction of a processed line pair that matched falls
below `matchPercentThreshold`, `compareLines` pops the `changedLines`
entry it pushed for the pair on either side, leaving both sides exactly
as they were before the pair was processed (`Engine.cpp` lines 650–651
and 840–846).  The hypotheses pin the intermediate values of `procPair`:
the fetched raw lines, their word lists, the word-level diff, and the
segment-loop result; `hreject` is the failing threshold test. -/
theorem C8_reject_restores (doc1 doc2 : CmpDoc) (bd1 bd2 : BlockDiff)
    (opts : Options) (c1 c2 : List ChangedLine) (line1 line2 : Int)
    (raw1 raw2 : List Nat) (lineWords1 lineWords2 : List WordRec)
    (wr : List DiffSeg × Bool) (st : LineState)
    (hr1 : raw1 = docRawLine doc1 (bd1.off + line1))
    (hr2 : raw2 = docRawLine doc2 (bd2.off + line2))
    (hw1 : lineWords1 = getLineWords opts raw1)
    (hw2 : lineWords2 = getLineWords opts raw2)
    (hwr : wr = diffCalc eqWord lineWords1 lineWords2)
    (hst : st = segLoop opts (if wr.2 then raw2 else raw1)
      (if wr.2 then raw1 else raw2)
      (if wr.2 then lineWords2 else lineWords1)
      (if wr.2 then lineWords1 else lineWords2)
      wr.1 (wr.1.length + 1) 0
      ⟨(if wr.2 then c2 else c1)
          ++ [⟨if wr.2 then line2 else line1, []⟩],
        (if wr.2 then c1 else c2)
          ++ [⟨if wr.2 then line1 else line2, []⟩], 0⟩)
    (hreject : (st.total * 100) /
        max ((if wr.2 then lineWords2 else lineWords1).foldl
              (fun acc w => acc + w.len) 0)
            ((if wr.2 then lineWords1 else lineWords2).foldl
              (fun acc w => acc + w.len) 0)
        < opts.matchPercentThreshold) :
    procPair doc1 doc2 bd1 bd2 opts c1 c2 line1 line2 = (c1, c2) := by
  subst hst hwr hw1 hw2 hr1 hr2
  unfold procPair
  dsimp only
  rw [if_pos hreject]
  have hs := segLoop_sameButLast opts
    (if (diffCalc eqWord
          (getLineWords opts (docRawLine doc1 (bd1.off + line1)))
          (getLineWords opts (docRawLine doc2 (bd2.off + line2)))).2
     then docRawLine doc2 (bd2.off + line2)
     else docRawLine doc1 (bd1.off + line1))
    (if (diffCalc eqWord
          (getLineWords opts (docRawLine doc1 (bd1.off + line1)))
          (getLineWords opts (docRawLine doc2 (bd2.off + line2)))).2
     then docRawLine doc1 (bd1.off + line1)
     else docRawLine doc2 (bd2.off + line2))
    (if (diffCalc eqWord
          (getLineWords opts (docRawLine doc1 (bd1.off + line1)))
          (getLineWords opts (docRawLine doc2 (bd2.off + line2)))).2
     then getLineWords opts (docRawLine doc2 (bd2.off + line2))
     else getLineWords opts (docRawLine doc1 (bd1.off + line1)))
    (if (diffCalc eqWord
          (getLineWords opts (docRawLine doc1 (bd1.off + line1)))
          (getLineWords opts (docRawLine doc2 (bd2.off + line2)))).2
     then getLineWords opts (docRawLine doc1 (bd1.off + line1))
     else getLineWords opts (docRawLine doc2 (bd2.off + line2)))
    (diffCalc eqWord
      (getLineWords opts (docRawLine doc1 (bd1.off + line1)))
      (getLineWords opts (docRawLine doc2 (bd2.off + line2)))).1
    ((diffCalc eqWord
      (getLineWords opts (docRawLine doc1 (bd1.off + line1)))
      (getLineWords opts (docRawLine doc2 (bd2.off + line2)))).1.length + 1)
    0
    ⟨(if (diffCalc eqWord
          (getLineWords opts (docRawLine doc1 (bd1.off + line1)))
          (getLineWords opts (docRawLine doc2 (bd2.off + line2)))).2
       then c2 else c1)
        ++ [⟨if (diffCalc eqWord
              (getLineWords opts (docRawLine doc1 (bd1.off + line1)))
              (getLineWords opts (docRawLine doc2 (bd2.off + line2)))).2
            then line2 else line1, []⟩],
      (if (diffCalc eqWord
          (getLineWords opts (docRawLine doc1 (bd1.off + line1)))
          (getLineWords opts (docRawLine doc2 (bd2.off + line2)))).2
       then c1 else c2)
        ++ [⟨if (diffCalc eqWord
              (getLineWords opts (docRawLine doc1 (bd1.off + line1)))
              (getLineWords opts (docRawLine doc2 (bd2.off + line2)))).2
            then line1 else line2, []⟩], 0⟩
  by_cases hsw : (diffCalc eqWord
      (getLineWords opts (docRawLine doc1 (bd1.off + line1)))
      (getLineWords opts (docRawLine doc2 (bd2.off + line2)))).2 = true
  · rw [if_pos hsw]
    dsimp only
    rw [hs.1.1, hs.2.1]
    simp only [if_pos hsw, dropLast_snoc]
  · rw [if_neg hsw]
    rw [hs.1.1, hs.2.1]
    simp only [if_neg hsw, dropLast_snoc]

/-- Witness for `C8_reject_restores` at concrete inputs: lines `"ab"`
versus `"xy"` share no words, so the matched fraction is `0 < 50` and
both sides' `changedLines` come back unchanged (here: empty). -/
theorem C8_reject_restores_witness :
    procPair ⟨[[97, 98]], [⟨0, 0⟩]⟩ ⟨[[120, 121]], [⟨0, 0⟩]⟩
      ⟨DIFF_IN_1, 0, 1, [], [], some 1⟩ ⟨DIFF_IN_2, 0, 1, [], [], some 0⟩
      {} [] [] 0 0 = ([], []) :=
  C8_reject_restores ⟨[[97, 98]], [⟨0, 0⟩]⟩ ⟨[[120, 121]], [⟨0, 0⟩]⟩
    ⟨DIFF_IN_1, 0, 1, [], [], some 1⟩ ⟨DIFF_IN_2, 0, 1, [], [], some 0⟩
    {} [] [] 0 0 _ _ _ _ _ _ rfl rfl rfl rfl rfl rfl (by decide)

theorem pair_sel_len (c : Prop) [Decidable c] (xA xB yA yB : List ChangedLine)
    (h1 : xA.length = xB.length) (h2 : yA.length = yB.length) :
    ((if c then (xA, xB) else (yA, yB)) :
        List ChangedLine × List ChangedLine).1.length
      = (if c then (xA, xB) else (yA, yB)).2.length := by
  by_cases hc : c
  · rw [if_pos hc]; exact h1
  · rw [if_neg hc]; exact h2

theorem pair_sel_len2 (c : Prop) [Decidable c] (xA xB yA yB : List ChangedLine)
    (h1 : xB.length = xA.length) (h2 : yB.length = yA.length) :
    ((if c then (xA, xB) else (yA, yB)) :
        List ChangedLine × List ChangedLine).2.length
      = (if c then (xA, xB) else (yA, yB)).1.length := by
  by_cases hc : c
  · rw [if_pos hc]; exact h1
  · rw [if_neg hc]; exact h2

/-- Processing one line pair changes the two sides' `changedLines` lists
by the same amount: both grow by one (the pair kept) or both come back
with their original lengths (the pair rejected). -/
theorem procPair_len (doc1 doc2 : CmpDoc) (bd1 bd2 : BlockDiff)
    (opts : Options) (c1 c2 : List ChangedLine) (line1 line2 : Int)
    (h : c1.length = c2.length) :
    (procPair doc1 doc2 bd1 bd2 opts c1 c2 line1 line2).1.length
      = (procPair doc1 doc2 bd1 bd2 opts c1 c2 line1 line2).2.length := by
  unfold procPair
  dsimp only
  generalize docRawLine doc1 (bd1.off + line1) = raw1
  generalize docRawLine doc2 (bd2.off + line2) = raw2
  generalize getLineWords opts raw1 = lw1
  generalize getLineWords opts raw2 = lw2
  generalize diffCalc eqWord lw1 lw2 = wr
  rcases wr with ⟨ld, sw⟩
  dsimp only
  cases sw
  · simp only [if_neg (show ¬ (false = true) by decide)]
    have hs := segLoop_sameButLast opts raw1 raw2 lw1 lw2 ld
      (ld.length + 1) 0 ⟨c1 ++ [⟨line1, []⟩], c2 ++ [⟨line2, []⟩], 0⟩
    refine pair_sel_len _ _ _ _ _ ?_ ?_
    · rw [List.length_dropLast, List.length_dropLast, hs.1.2, hs.2.2]
      simp [h]
    · rw [hs.1.2, hs.2.2]
      simp [h]
  · simp only [eq_self_iff_true, if_true]
    have hs := segLoop_sameButLast opts raw2 raw1 lw2 lw1 ld
      (ld.length + 1) 0 ⟨c2 ++ [⟨line2, []⟩], c1 ++ [⟨line1, []⟩], 0⟩
    refine pair_sel_len2 _ _ _ _ _ ?_ ?_
    · rw [List.length_dropLast, List.length_dropLast, hs.1.2, hs.2.2]
      simp [h]
    · rw [hs.1.2, hs.2.2]
      simp [h]

/-- **C9.**  `compareLines` keeps the two matched blocks' `changedLines`
lists in lockstep: entries are pushed to both sides together and popped
from both sides together, so starting from equal lengths the two output
lists again have equal lengths, and any index valid on one side is valid
on the other — the emitter's access to `changedLines[j]` on both blocks
(`Engine.cpp` lines 1036–1057 and 1119–1127) stays in bounds. -/
theorem C9_changedLines_lockstep (doc1 doc2 : CmpDoc) (bd1 bd2 : BlockDiff)
    (lineMappings : List (Int × Rat × Int)) (opts : Options)
    (h : bd1.changedLines.length = bd2.changedLines.length) :
    (compareLines doc1 doc2 bd1 bd2 lineMappings opts).1.length
      = (compareLines doc1 doc2 bd1 bd2 lineMappings opts).2.length
    ∧ ∀ j : Nat,
        j < (compareLines doc1 doc2 bd1 bd2 lineMappings opts).1.length
        → j < (compareLines doc1 doc2 bd1 bd2 lineMappings opts).2.length := by
  have key : (compareLines doc1 doc2 bd1 bd2 lineMappings opts).1.length
      = (compareLines doc1 doc2 bd1 bd2 lineMappings opts).2.length := by
    unfold compareLines
    dsimp only
    refine foldl_preserve
      (fun acc : List ChangedLine × List ChangedLine × Int =>
        acc.1.length = acc.2.1.length) _ ?_ lineMappings
      (bd1.changedLines, bd2.changedLines, -1) h
    intro st lm hst
    dsimp only
    split
    · exact hst
    · exact procPair_len doc1 doc2 bd1 bd2 opts st.1 st.2.1 lm.1 lm.2.2 hst
  exact ⟨key, fun j hj => key ▸ hj⟩

/-- Witness for `C9_changedLines_lockstep` at concrete inputs: one mapped
pair over one-line documents, starting from two empty `changedLines`
lists; the outputs have equal length. -/
theorem C9_changedLines_lockstep_witness :
    (compareLines ⟨[[97, 98]], [⟨0, 0⟩]⟩ ⟨[[97, 99]], [⟨0, 0⟩]⟩
        ⟨DIFF_IN_1, 0, 1, [], [], some 1⟩ ⟨DIFF_IN_2, 0, 1, [], [], some 0⟩
        [(0, 1, 0)] {}).1.length
      = (compareLines ⟨[[97, 98]], [⟨0, 0⟩]⟩ ⟨[[97, 99]], [⟨0, 0⟩]⟩
        ⟨DIFF_IN_1, 0, 1, [], [], some 1⟩ ⟨DIFF_IN_2, 0, 1, [], [], some 0⟩
        [(0, 1, 0)] {}).2.length :=
  (C9_changedLines_lockstep ⟨[[97, 98]], [⟨0, 0⟩]⟩ ⟨[[97, 99]], [⟨0, 0⟩]⟩
    ⟨DIFF_IN_1, 0, 1, [], [], some 1⟩ ⟨DIFF_IN_2, 0, 1, [], [], some 0⟩
    [(0, 1, 0)] {} rfl).1

/-! ## Claim C6: the candidate set of the block re-aligner -/

/-- The character-count prefilter of `compareBlocks` (`Engine.cpp` lines
903–906): the pair is dropped when the shorter line's char count times
100, integer-divided by the longer one's, is below the threshold. -/
def charCountPrefilterRejects (opts : Options)
    (chunk1 chunk2 : List (List CharRec)) (i j : Int) : Prop :=
  (min (chunk1.getD i.toNat []).length (chunk2.getD j.toNat []).length
      * 100) /
    max (chunk1.getD i.toNat []).length (chunk2.getD j.toNat []).length
    < opts.matchPercentThreshold

/-- Convergence of a line pair as the specification words it: the sum of
the `DIFF_MATCH` char lengths times 100, divided by the longer line's
char count.  Stated independently of `candidateFor`'s accumulating fold,
to be compared with it. -/
def specLineConvergence (chunk1 chunk2 : List (List CharRec))
    (i j : Int) : Rat :=
  let pl1 := chunk1.getD i.toNat []
  let pl2 := chunk2.getD j.toNat []
  ((((diffCalc eqChar pl1 pl2).1.filter
      (fun ld => ld.dtype == DIFF_MATCH)).map
      (fun ld => (ld.len : Rat))).sum * 100)
    / (((max pl1.length pl2.length : Nat)) : Rat)

theorem foldl_match_sum (l : List DiffSeg) :
    ∀ acc : Rat,
      l.foldl (fun acc ld =>
        if ld.dtype == DIFF_MATCH then acc + (ld.len : Rat) else acc) acc
      = acc + ((l.filter (fun ld => ld.dtype == DIFF_MATCH)).map
          (fun ld => (ld.len : Rat))).sum := by
  induction l with
  | nil => intro acc; simp
  | cons x xs ih =>
      intro acc
      by_cases hx : (x.dtype == DIFF_MATCH) = true
      · simp only [List.foldl_cons, if_pos hx, List.filter_cons, hx,
          eq_self_iff_true, if_true, List.map_cons, List.sum_cons]
        rw [ih]
        ring
      · have hx2 : (x.dtype == DIFF_MATCH) = false := by simpa using hx
        simp only [List.foldl_cons, if_neg hx, List.filter_cons, hx2,
          Bool.false_eq_true, if_false]
        exact ih acc

theorem candidateFor_conv
    (chunk1 chunk2 : List (List CharRec)) (i j : Int) :
    (diffCalc eqChar (chunk1.getD i.toNat [])
        (chunk2.getD j.toNat [])).1.foldl
      (fun acc ld =>
        if ld.dtype == DIFF_MATCH then acc + (ld.len : Rat) else acc) 0
      * 100
      / (((max (chunk1.getD i.toNat []).length
          (chunk2.getD j.toNat []).length : Nat)) : Rat)
    = specLineConvergence chunk1 chunk2 i j := by
  unfold specLineConvergence
  dsimp only
  rw [foldl_match_sum, zero_add]

theorem candidateFor_reject (opts : Options)
    (chunk1 chunk2 : List (List CharRec)) (i j : Int) (s : List ConvKey)
    (h : charCountPrefilterRejects opts chunk1 chunk2 i j) :
    candidateFor opts chunk1 chunk2 i j s = s := by
  unfold charCountPrefilterRejects at h
  unfold candidateFor
  dsimp only
  rw [if_pos h]

theorem candidateFor_insert (opts : Options)
    (chunk1 chunk2 : List (List CharRec)) (i j : Int) (s : List ConvKey)
    (h : ¬ charCountPrefilterRejects opts chunk1 chunk2 i j)
    (ht : (opts.matchPercentThreshold : Rat)
      ≤ specLineConvergence chunk1 chunk2 i j) :
    candidateFor opts chunk1 chunk2 i j s
      = insertOrdered ⟨specLineConvergence chunk1 chunk2 i j, i, j⟩ s := by
  unfold charCountPrefilterRejects at h
  unfold candidateFor
  dsimp only
  rw [if_neg h, candidateFor_conv chunk1 chunk2 i j, if_pos ht]

theorem candidateFor_below (opts : Options)
    (chunk1 chunk2 : List (List CharRec)) (i j : Int) (s : List ConvKey)
    (h : ¬ charCountPrefilterRejects opts chunk1 chunk2 i j)
    (ht : specLineConvergence chunk1 chunk2 i j
      < (opts.matchPercentThreshold : Rat)) :
    candidateFor opts chunk1 chunk2 i j s = s := by
  unfold charCountPrefilterRejects at h
  unfold candidateFor
  dsimp only
  rw [if_neg h, candidateFor_conv chunk1 chunk2 i j,
    if_neg (not_le.mpr ht)]

theorem mem_insertOrdered {y k : ConvKey} :
    ∀ {l : List ConvKey}, y ∈ insertOrdered k l → y = k ∨ y ∈ l := by
  intro l
  induction l with
  | nil =>
      intro h
      simp [insertOrdered] at h
      exact Or.inl h
  | cons x xs ih =>
      intro h
      unfold insertOrdered at h
      by_cases h1 : ltConvKey k x = true
      · rw [if_pos h1] at h
        rcases List.mem_cons.mp h with h | h
        · exact Or.inl h
        · exact Or.inr h
      · rw [if_neg h1] at h
        by_cases h2 : ltConvKey x k = true
        · rw [if_pos h2] at h
          rcases List.mem_cons.mp h with h | h
          · exact Or.inr (List.mem_cons.mpr (Or.inl h))
          · rcases ih h with h | h
            · exact Or.inl h
            · exact Or.inr (List.mem_cons.mpr (Or.inr h))
        · rw [if_neg h2] at h
          exact Or.inr h

theorem ltConvKey_trans {a b c : ConvKey} (h1 : ltConvKey a b = true)
    (h2 : ltConvKey b c = true) : ltConvKey a c = true := by
  simp only [ltConvKey, decide_eq_true_eq] at h1 h2 ⊢
  rcases h1 with h1 | ⟨e1, h1⟩ <;> rcases h2 with h2 | ⟨e2, h2⟩
  · exact Or.inl (lt_trans h2 h1)
  · exact Or.inl (by rw [← e2]; exact h1)
  · exact Or.inl (by rw [e1]; exact h2)
  · exact Or.inr ⟨e1.trans e2, by omega⟩

theorem insertOrdered_sorted (k : ConvKey) :
    ∀ l : List ConvKey, l.Pairwise (fun a b => ltConvKey a b = true) →
      (insertOrdered k l).Pairwise (fun a b => ltConvKey a b = true) := by
  intro l
  induction l with
  | nil => intro _; simp [insertOrdered]
  | cons x xs ih =>
      intro h
      rcases List.pairwise_cons.mp h with ⟨hx, hxs⟩
      unfold insertOrdered
      by_cases h1 : ltConvKey k x = true
      · rw [if_pos h1]
        refine List.pairwise_cons.mpr ⟨?_, h⟩
        intro y hy
        rcases List.mem_cons.mp hy with rfl | hy
        · exact h1
        · exact ltConvKey_trans h1 (hx y hy)
      · rw [if_neg h1]
        by_cases h2 : ltConvKey x k = true
        · rw [if_pos h2]
          refine List.pairwise_cons.mpr ⟨?_, ih hxs⟩
          intro y hy
          rcases mem_insertOrdered hy with rfl | hy
          · exact h2
          · exact hx y hy
        · rw [if_neg h2]
          exact h

theorem candidateFor_cases (opts : Options)
    (chunk1 chunk2 : List (List CharRec)) (i j : Int) (s : List ConvKey) :
    candidateFor opts chunk1 chunk2 i j s = s ∨
    candidateFor opts chunk1 chunk2 i j s
      = insertOrdered ⟨specLineConvergence chunk1 chunk2 i j, i, j⟩ s := by
  by_cases h : charCountPrefilterRejects opts chunk1 chunk2 i j
  · exact Or.inl (candidateFor_reject opts chunk1 chunk2 i j s h)
  · by_cases ht : (opts.matchPercentThreshold : Rat)
        ≤ specLineConvergence chunk1 chunk2 i j
    · exact Or.inr (candidateFor_insert opts chunk1 chunk2 i j s h ht)
    · exact Or.inl
        (candidateFor_below opts chunk1 chunk2 i j s h (not_le.mp ht))

theorem foldl_preserve_mem {α β : Type _} (P : β → Prop) (f : β → α → β) :
    ∀ (l : List α), (∀ st x, x ∈ l → P st → P (f st x)) →
      ∀ init, P init → P (l.foldl f init) := by
  intro l
  induction l with
  | nil => intro _ init hi; exact hi
  | cons x xs ih =>
      intro h init hi
      exact ih (fun st y hy hst => h st y (List.mem_cons.mpr (Or.inr hy))
        hst) _ (h init x (List.mem_cons.mpr (Or.inl rfl)) hi)

theorem walkIdx_mem (chunk : List (List CharRec)) (moves : List Sec)
    (count : Int) :
    ∀ (fuel : Nat) (i0 i : Int), i ∈ walkIdx chunk moves count fuel i0 →
      i < count ∧ (chunk.getD i.toNat []).isEmpty = false
        ∧ getNextUnmoved moves i = none := by
  intro fuel
  induction fuel with
  | zero => intro i0 i h; simp [walkIdx] at h
  | succ n ih =>
      intro i0 i h
      unfold walkIdx at h
      by_cases hc : i0 < count
      · rw [if_pos hc] at h
        by_cases he : (chunk.getD i0.toNat []).isEmpty = true
        · rw [if_pos he] at h
          exact ih _ _ h
        · rw [if_neg he] at h
          rcases hnu : getNextUnmoved moves i0 with _ | j
          · rw [hnu] at h
            dsimp only at h
            rcases List.mem_cons.mp h with rfl | h
            · exact ⟨hc, by simpa using he, hnu⟩
            · exact ih _ _ h
          · rw [hnu] at h
            dsimp only at h
            exact ih _ _ h
      · rw [if_neg hc] at h
        simp at h

/-- **C6.**  The candidate set the block re-aligner builds: a scanned
pair is dropped by the character-count prefilter when
`min * 100 / max < matchPercentThreshold`; a surviving pair is inserted
exactly when its convergence — the matched char count times 100 over the
longer line's char count — reaches the threshold; every collected
candidate comes from a pair of in-range, non-empty, unmoved lines, passes
the prefilter, and carries that convergence; and the resulting set is
strictly ordered by descending convergence with ties broken by smaller
`line1`, then smaller `line2` (`Engine.cpp` lines 859–928). -/
theorem C6_candidate_set (opts : Options)
    (chunk1 chunk2 : List (List CharRec)) (moves1 moves2 : List Sec)
    (len1 len2 : Int) :
    (∀ (i j : Int) (s : List ConvKey),
        charCountPrefilterRejects opts chunk1 chunk2 i j →
        candidateFor opts chunk1 chunk2 i j s = s)
    ∧ (∀ (i j : Int) (s : List ConvKey),
        ¬ charCountPrefilterRejects opts chunk1 chunk2 i j →
        (opts.matchPercentThreshold : Rat)
            ≤ specLineConvergence chunk1 chunk2 i j →
        candidateFor opts chunk1 chunk2 i j s
          = insertOrdered
              ⟨specLineConvergence chunk1 chunk2 i j, i, j⟩ s)
    ∧ (∀ (i j : Int) (s : List ConvKey),
        ¬ charCountPrefilterRejects opts chunk1 chunk2 i j →
        specLineConvergence chunk1 chunk2 i j
            < (opts.matchPercentThreshold : Rat) →
        candidateFor opts chunk1 chunk2 i j s = s)
    ∧ (∀ k ∈ buildCands opts chunk1 chunk2 moves1 moves2 len1 len2,
        k.line1 < len1 ∧ k.line2 < len2
        ∧ (chunk1.getD k.line1.toNat []).isEmpty = false
        ∧ (chunk2.getD k.line2.toNat []).isEmpty = false
        ∧ getNextUnmoved moves1 k.line1 = none
        ∧ getNextUnmoved moves2 k.line2 = none
        ∧ ¬ charCountPrefilterRejects opts chunk1 chunk2 k.line1 k.line2
        ∧ k.conv = specLineConvergence chunk1 chunk2 k.line1 k.line2
        ∧ (opts.matchPercentThreshold : Rat) ≤ k.conv)
    ∧ (buildCands opts chunk1 chunk2 moves1 moves2 len1 len2).Pairwise
        (fun a b => ltConvKey a b = true) := by
  refine ⟨fun i j s h => candidateFor_reject opts chunk1 chunk2 i j s h,
    fun i j s h ht => candidateFor_insert opts chunk1 chunk2 i j s h ht,
    fun i j s h ht => candidateFor_below opts chunk1 chunk2 i j s h ht,
    ?_, ?_⟩
  · unfold buildCands
    refine foldl_preserve_mem
      (fun s : List ConvKey => ∀ y ∈ s,
        y.line1 < len1 ∧ y.line2 < len2
        ∧ (chunk1.getD y.line1.toNat []).isEmpty = false
        ∧ (chunk2.getD y.line2.toNat []).isEmpty = false
        ∧ getNextUnmoved moves1 y.line1 = none
        ∧ getNextUnmoved moves2 y.line2 = none
        ∧ ¬ charCountPrefilterRejects opts chunk1 chunk2 y.line1 y.line2
        ∧ y.conv = specLineConvergence chunk1 chunk2 y.line1 y.line2
        ∧ (opts.matchPercentThreshold : Rat) ≤ y.conv)
      (fun s i =>
        (walkIdx chunk2 moves2 len2 (len2.toNat + 1) 0).foldl
          (fun s j => candidateFor opts chunk1 chunk2 i j s) s)
      (walkIdx chunk1 moves1 len1 (len1.toNat + 1) 0) ?_ []
      (by intro y hy; simp at hy)
    intro st i hi hst
    refine foldl_preserve_mem
      (fun s : List ConvKey => ∀ y ∈ s,
        y.line1 < len1 ∧ y.line2 < len2
        ∧ (chunk1.getD y.line1.toNat []).isEmpty = false
        ∧ (chunk2.getD y.line2.toNat []).isEmpty = false
        ∧ getNextUnmoved moves1 y.line1 = none
        ∧ getNextUnmoved moves2 y.line2 = none
        ∧ ¬ charCountPrefilterRejects opts chunk1 chunk2 y.line1 y.line2
        ∧ y.conv = specLineConvergence chunk1 chunk2 y.line1 y.line2
        ∧ (opts.matchPercentThreshold : Rat) ≤ y.conv)
      (fun s j => candidateFor opts chunk1 chunk2 i j s)
      (walkIdx chunk2 moves2 len2 (len2.toNat + 1) 0) ?_ st hst
    intro st2 j hj hst2
    intro y hy
    dsimp only at hy
    by_cases h : charCountPrefilterRejects opts chunk1 chunk2 i j
    · rw [candidateFor_reject opts chunk1 chunk2 i j st2 h] at hy
      exact hst2 y hy
    · by_cases ht : (opts.matchPercentThreshold : Rat)
          ≤ specLineConvergence chunk1 chunk2 i j
      · rw [candidateFor_insert opts chunk1 chunk2 i j st2 h ht] at hy
        rcases mem_insertOrdered hy with rfl | hy
        · obtain ⟨hi1, hi2, hi3⟩ :=
            walkIdx_mem chunk1 moves1 len1 (len1.toNat + 1) 0 i hi
          obtain ⟨hj1, hj2, hj3⟩ :=
            walkIdx_mem chunk2 moves2 len2 (len2.toNat + 1) 0 j hj
          exact ⟨hi1, hj1, hi2, hj2, hi3, hj3, h, rfl, ht⟩
        · exact hst2 y hy
      · rw [candidateFor_below opts chunk1 chunk2 i j st2 h
            (not_le.mp ht)] at hy
        exact hst2 y hy
  · unfold buildCands
    refine foldl_preserve
      (fun s : List ConvKey =>
        s.Pairwise (fun a b => ltConvKey a b = true))
      (fun s i =>
        (walkIdx chunk2 moves2 len2 (len2.toNat + 1) 0).foldl
          (fun s j => candidateFor opts chunk1 chunk2 i j s) s) ?_
      (walkIdx chunk1 moves1 len1 (len1.toNat + 1) 0) [] (by simp)
    intro st i hst
    refine foldl_preserve
      (fun s : List ConvKey =>
        s.Pairwise (fun a b => ltConvKey a b = true))
      (fun s j => candidateFor opts chunk1 chunk2 i j s) ?_
      (walkIdx chunk2 moves2 len2 (len2.toNat + 1) 0) st hst
    intro st2 j hst2
    dsimp only
    rcases candidateFor_cases opts chunk1 chunk2 i j st2 with hc | hc
    · rw [hc]; exact hst2
    · rw [hc]; exact insertOrdered_sorted _ st2 hst2

/-- Witness for `C6_candidate_set` at concrete inputs: against an empty
char sequence the prefilter ratio is `0 < 50`, so the pair is dropped and
the candidate set stays empty. -/
theorem C6_candidate_set_witness :
    candidateFor {} [[⟨97, 0⟩]] [[]] 0 0 [] = [] :=
  (C6_candidate_set {} [[⟨97, 0⟩]] [[]] [] [] 1 1).1 0 0 []
    (by unfold charCountPrefilterRejects; decide)

/-! ## Claim C7: the assignment search of the block re-aligner -/

theorem foldl_argmax {X : Type _} (run : Nat → X) (score : X → Rat)
    (d : X) :
    ∀ n : Nat,
      (((List.range n).foldl
          (fun (best : Rat × X) k =>
            if best.1 < score (run k) then (score (run k), run k)
            else best) (0, d)).1 = 0
        ∧ ((List.range n).foldl
          (fun (best : Rat × X) k =>
            if best.1 < score (run k) then (score (run k), run k)
            else best) (0, d)).2 = d
        ∧ ∀ k, k < n → score (run k) ≤ 0)
      ∨ (∃ k, k < n
          ∧ ((List.range n).foldl
              (fun (best : Rat × X) k =>
                if best.1 < score (run k) then (score (run k), run k)
                else best) (0, d)).2 = run k
          ∧ ((List.range n).foldl
              (fun (best : Rat × X) k =>
                if best.1 < score (run k) then (score (run k), run k)
                else best) (0, d)).1 = score (run k)
          ∧ ∀ k2, k2 < n → score (run k2) ≤ score (run k)) := by
  intro n
  induction n with
  | zero =>
      exact Or.inl ⟨rfl, rfl, fun k hk => absurd hk (Nat.not_lt_zero k)⟩
  | succ n ih =>
      rw [List.range_succ, List.foldl_append, List.foldl_cons,
        List.foldl_nil]
      rcases ih with ⟨h1, h2, h3⟩ | ⟨k, hk, hm, hs, hmax⟩
      · by_cases hlt : ((List.range n).foldl
            (fun (best : Rat × X) k =>
              if best.1 < score (run k) then (score (run k), run k)
              else best) (0, d)).1 < score (run n)
        · rw [if_pos hlt]
          refine Or.inr ⟨n, Nat.lt_succ_self n, rfl, rfl, ?_⟩
          intro k2 hk2
          rcases Nat.lt_succ_iff_lt_or_eq.mp hk2 with hk2 | rfl
          · exact le_trans (h3 k2 hk2) (le_of_lt (h1 ▸ hlt))
          · exact le_refl _
        · rw [if_neg hlt]
          refine Or.inl ⟨h1, h2, ?_⟩
          intro k2 hk2
          rcases Nat.lt_succ_iff_lt_or_eq.mp hk2 with hk2 | rfl
          · exact h3 k2 hk2
          · exact h1 ▸ not_lt.mp hlt
      · by_cases hlt : ((List.range n).foldl
            (fun (best : Rat × X) k =>
              if best.1 < score (run k) then (score (run k), run k)
              else best) (0, d)).1 < score (run n)
        · rw [if_pos hlt]
          refine Or.inr ⟨n, Nat.lt_succ_self n, rfl, rfl, ?_⟩
          intro k2 hk2
          rcases Nat.lt_succ_iff_lt_or_eq.mp hk2 with hk2 | rfl
          · exact le_trans (hmax k2 hk2) (le_of_lt (hs ▸ hlt))
          · exact le_refl _
        · rw [if_neg hlt]
          refine Or.inr ⟨k, Nat.lt_succ_of_lt hk, hm, hs, ?_⟩
          intro k2 hk2
          rcases Nat.lt_succ_iff_lt_or_eq.mp hk2 with hk2 | rfl
          · exact hmax k2 hk2
          · exact hs ▸ not_lt.mp hlt

/-- **C7 (amended).**  Whenever some starting element of the ordered
candidate set yields a greedy run with strictly positive block
convergence, the assignment the re-aligner retains is the run of some
starting element, and that run's score is maximal among all runs.  (The
positivity hypothesis is needed: the best-so-far convergence starts at
`0` and is replaced only on strict improvement, so when every run scores
`0` the engine keeps the empty mapping even though nonempty maximal-score
assignments exist — see the counterexample.) -/
theorem C7_assignment_search (count1 count2 : Nat) (cands : List ConvKey)
    (hpos : ∃ k, k < cands.length ∧
      0 < scoreOf (greedyRun count1 count2 (cands.drop k)
        ⟨[], [], [], 0, 0⟩)) :
    ∃ k, k < cands.length
      ∧ bestMappings count1 count2 cands
        = greedyRun count1 count2 (cands.drop k) ⟨[], [], [], 0, 0⟩
      ∧ ∀ k2, k2 < cands.length →
          scoreOf (greedyRun count1 count2 (cands.drop k2)
            ⟨[], [], [], 0, 0⟩)
          ≤ scoreOf (greedyRun count1 count2 (cands.drop k)
            ⟨[], [], [], 0, 0⟩) := by
  rcases foldl_argmax
      (fun k => greedyRun count1 count2 (cands.drop k) ⟨[], [], [], 0, 0⟩)
      scoreOf [] cands.length with ⟨h1, h2, h3⟩ | ⟨k, hk, hm, hs, hmax⟩
  · rcases hpos with ⟨k, hk, hkpos⟩
    exact absurd (h3 k hk) (not_le.mpr hkpos)
  · exact ⟨k, hk, hm, fun k2 hk2 => hmax k2 hk2⟩

/-- Witness for `C7_assignment_search` at concrete inputs: a single
candidate of convergence `1`; the retained assignment is the run started
at it. -/
theorem C7_assignment_search_witness :
    bestMappings 2 2 [⟨1, 0, 0⟩]
      = greedyRun 2 2 ([(⟨1, 0, 0⟩ : ConvKey)].drop 0)
          ⟨[], [], [], 0, 0⟩ := by
  obtain ⟨k, hk, hm, -⟩ := C7_assignment_search 2 2 [⟨1, 0, 0⟩]
    ⟨0, by decide, by
      simp [greedyRun, scoreOf, insertMapping]⟩
  have hk0 : k = 0 := by simp only [List.length_singleton] at hk; omega
  subst hk0
  exact hm

/-- **C7, counterexample to the unamended sentence.**  One candidate of
convergence `0` (reachable with `matchPercentThreshold = 0`): the only
starting element's greedy run is the nonempty assignment `[(0, 0, 0)]`,
which trivially has the highest score of all runs, yet the engine's
search keeps the empty mapping — the highest-scoring assignment is not
the one used. -/
theorem C7_assignment_search_cex :
    bestMappings 1 1 [⟨0, 0, 0⟩] = []
    ∧ greedyRun 1 1 [(⟨0, 0, 0⟩ : ConvKey)] ⟨[], [], [], 0, 0⟩
        = [((0 : Int), (0 : Rat), (0 : Int))]
    ∧ ([] : List (Int × Rat × Int))
        ≠ [((0 : Int), (0 : Rat), (0 : Int))] := by
  refine ⟨?_, ?_, ?_⟩
  · simp [bestMappings, List.range_succ, greedyRun, scoreOf,
      insertMapping]
  · rfl
  · simp

end Engine
